import Mathlib

/-!
Verification of the layered subscription core of a react-redux style library.

The embedding covers two source files:
* `Subscription` (the listener collection and `createSubscription`), and
* `Provider.tsx` (the attach effect of the `Provider` component).

The doubly linked listener collection is embedded with nodes stored in an
append-only list indexed by allocation order (a node id models the JS object
identity); `first`/`last` hold optional node ids.  The external batching
primitive is opaque and calls its argument synchronously, so `notify` is
modelled as the plain dispatch loop.
-/

set_option maxHeartbeats 1000000

/-- One listener node of the doubly linked collection: the registered
callback, the forward/backward links, and the `isSubscribed` flag captured by
the `unsubscribe` closure returned at registration time. -/
structure LNode (α : Type) where
  cb : α
  next : Option Nat
  prev : Option Nat
  subscribed : Bool
deriving Repr, DecidableEq

/-- The listener collection built by `createListenerCollection`: the nodes
ever allocated (append-only, id = allocation index) plus the `first` and
`last` pointers. -/
structure Collection (α : Type) where
  nodes : List (LNode α)
  first : Option Nat
  last : Option Nat
deriving Repr, DecidableEq

namespace Collection

/-- The fresh collection (`first = last = null`). -/
def empty {α : Type} : Collection α := ⟨[], none, none⟩

/-- Update node `i` in place if it exists. -/
def setNode {α : Type} (ns : List (LNode α)) (i : Nat) (g : LNode α → LNode α) :
    List (LNode α) :=
  match ns.get? i with
  | some n => ns.set i (g n)
  | none => ns

/-- `subscribe(callback)`: append a node at the tail (`last = listener`,
link the previous tail forward or set `first`), returning the new node's id
(the identity the `unsubscribe` closure captures) and the updated state. -/
def subscribe {α : Type} (c : Collection α) (cb : α) : Nat × Collection α :=
  let i := c.nodes.length
  let pr := c.last
  let c1 : Collection α :=
    { nodes := c.nodes ++ [{ cb := cb, next := none, prev := pr, subscribed := true }],
      first := c.first, last := some i }
  match pr with
  | some p => (i, { c1 with nodes := setNode c1.nodes p (fun n => { n with next := some i }) })
  | none => (i, { c1 with first := some i })

/-- The `unsubscribe` closure returned by `subscribe`, applied to the captured
node id: guarded by the closure's `isSubscribed` flag and by `first === null`,
it unlinks the node, updating `last`/`first` when the node was an endpoint. -/
def unsubscribe {α : Type} (c : Collection α) (i : Nat) : Collection α :=
  match c.nodes.get? i with
  | none => c
  | some node =>
    if node.subscribed = false ∨ c.first = none then c
    else
      let c1 : Collection α :=
        { c with nodes := setNode c.nodes i (fun n => { n with subscribed := false }) }
      let c2 : Collection α :=
        match node.next with
        | some nn => { c1 with nodes := setNode c1.nodes nn (fun n => { n with prev := node.prev }) }
        | none => { c1 with last := node.prev }
      match node.prev with
      | some pp => { c2 with nodes := setNode c2.nodes pp (fun n => { n with next := node.next }) }
      | none => { c2 with first := node.next }

/-- `clear()`: drop the head and tail pointers; the node objects themselves
are untouched (the JS objects stay reachable from closures). -/
def clear {α : Type} (c : Collection α) : Collection α :=
  { c with first := none, last := none }

/-- Walk of the forward links used by `get()`, collecting `(id, callback)`
pairs.  The walk is fuelled; any reachable collection has strictly increasing
forward links, so `nodes.length + 1` steps always suffice. -/
def chainEntries {α : Type} (c : Collection α) : Nat → Option Nat → List (Nat × α)
  | 0, _ => []
  | _ + 1, none => []
  | fuel + 1, some i =>
    match c.nodes.get? i with
    | none => []
    | some n => (i, n.cb) :: c.chainEntries fuel n.next

/-- `get()`: the snapshot of the current listeners in link order, each listener
given as its node id (object identity) with its callback. -/
def get {α : Type} (c : Collection α) : List (Nat × α) :=
  c.chainEntries (c.nodes.length + 1) c.first

end Collection

/-! ## Representation predicate for the linked collection

`seg c pr L nx` states that the nodes listed in `L` (as `(id, callback)`
pairs) form a well-linked, live segment of `c`: the first node's `prev` is
`pr`, consecutive nodes point at each other, and the final node's `next` is
`nx`. -/

/-- The id of the first node of `L`, or `nx` when `L` is empty. -/
def headPtr {α : Type} (L : List (Nat × α)) (nx : Option Nat) : Option Nat :=
  match L with
  | [] => nx
  | (j, _) :: _ => some j

/-- The id of the last node of `L`, or `pr` when `L` is empty. -/
def endPtr {α : Type} (pr : Option Nat) (L : List (Nat × α)) : Option Nat :=
  match L.getLast? with
  | some (i, _) => some i
  | none => pr

def seg {α : Type} (c : Collection α) : Option Nat → List (Nat × α) → Option Nat → Prop
  | _, [], _ => True
  | pr, (i, k) :: rest, nx =>
    ∃ n, c.nodes.get? i = some n ∧ n.subscribed = true ∧ n.cb = k ∧ n.prev = pr ∧
      n.next = headPtr rest nx ∧ seg c (some i) rest nx

theorem headPtr_append {α : Type} (A B : List (Nat × α)) (nx : Option Nat) :
    headPtr (A ++ B) nx = headPtr A (headPtr B nx) := by
  cases A with
  | nil => simp [headPtr]
  | cons a A' => cases a; simp [headPtr]

theorem endPtr_cons {α : Type} (pr : Option Nat) (i : Nat) (k : α) (A : List (Nat × α)) :
    endPtr pr ((i, k) :: A) = endPtr (some i) A := by
  cases A with
  | nil => simp [endPtr]
  | cons b A' =>
    have hs : (b :: A').getLast?.isSome := by simp [List.getLast?_isSome]
    obtain ⟨p, hp⟩ := Option.isSome_iff_exists.mp hs
    obtain ⟨q, m⟩ := p
    simp [endPtr, hp]

theorem seg_append {α : Type} (c : Collection α) (A B : List (Nat × α))
    (pr nx : Option Nat) :
    seg c pr (A ++ B) nx ↔ seg c pr A (headPtr B nx) ∧ seg c (endPtr pr A) B nx := by
  induction A generalizing pr with
  | nil => simp [seg, endPtr]
  | cons a A' ih =>
    obtain ⟨i, k⟩ := a
    simp only [List.cons_append, seg, endPtr_cons, List.append_eq]
    constructor
    · rintro ⟨n, h1, h2, h3, h4, h5, h6⟩
      obtain ⟨hA, hB⟩ := (ih (some i)).mp h6
      rw [headPtr_append] at h5
      exact ⟨⟨n, h1, h2, h3, h4, h5, hA⟩, hB⟩
    · rintro ⟨⟨n, h1, h2, h3, h4, h5, h6⟩, h7⟩
      rw [← headPtr_append] at h5
      exact ⟨n, h1, h2, h3, h4, h5, (ih (some i)).mpr ⟨h6, h7⟩⟩

theorem seg_frame {α : Type} {c c' : Collection α} {L : List (Nat × α)}
    (h : ∀ p ∈ L, c'.nodes.get? p.1 = c.nodes.get? p.1) (pr nx : Option Nat) :
    seg c pr L nx → seg c' pr L nx := by
  induction L generalizing pr with
  | nil => intro; trivial
  | cons a rest ih =>
    obtain ⟨i, k⟩ := a
    rintro ⟨n, h1, h2, h3, h4, h5, h6⟩
    refine ⟨n, ?_, h2, h3, h4, h5, ih (fun p hp => h p (List.mem_cons_of_mem _ hp)) (some i) h6⟩
    rw [h (i, k) (List.mem_cons_self _ _)]
    exact h1

theorem get?_some_lt {β : Type} {l : List β} {i : Nat} {a : β} (h : l.get? i = some a) :
    i < l.length := by
  by_contra hc
  push_neg at hc
  rw [List.get?_eq_none.mpr hc] at h
  exact Option.noConfusion h

theorem seg_mem {α : Type} {c : Collection α} {L : List (Nat × α)} {pr nx : Option Nat}
    (hs : seg c pr L nx) :
    ∀ p ∈ L, ∃ n, c.nodes.get? p.1 = some n ∧ n.subscribed = true ∧ n.cb = p.2 := by
  induction L generalizing pr with
  | nil => intro p hp; cases hp
  | cons a rest ih =>
    obtain ⟨i, k⟩ := a
    obtain ⟨n, h1, h2, h3, h4, h5, h6⟩ := hs
    intro p hp
    rcases List.mem_cons.mp hp with rfl | hp'
    · exact ⟨n, h1, h2, h3⟩
    · exact ih h6 p hp'

/-- Full representation invariant: `L` is the live chain of `c` in link
order. -/
structure RepOk {α : Type} (c : Collection α) (L : List (Nat × α)) : Prop where
  seg_ok : seg c none L none
  first_ok : c.first = headPtr L none
  last_ok : c.last = endPtr none L
  incr : List.Chain' (· < ·) (L.map Prod.fst)
  dead : ∀ i n, c.nodes.get? i = some n → n.subscribed = true → i ∈ L.map Prod.fst
  nextIncr : ∀ i n j, c.nodes.get? i = some n → n.next = some j → i < j ∧ j < c.nodes.length

namespace Collection

theorem setNode_length {α : Type} (ns : List (LNode α)) (i : Nat) (g : LNode α → LNode α) :
    (setNode ns i g).length = ns.length := by
  unfold setNode
  cases h : ns.get? i <;> simp

theorem get?_setNode_self {α : Type} {ns : List (LNode α)} {i : Nat} {n : LNode α}
    (h : ns.get? i = some n) (g : LNode α → LNode α) :
    (setNode ns i g).get? i = some (g n) := by
  unfold setNode
  rw [h]
  exact List.get?_set_eq_of_lt _ (get?_some_lt h)

theorem get?_setNode_ne {α : Type} (ns : List (LNode α)) (i : Nat) (g : LNode α → LNode α)
    {j : Nat} (h : j ≠ i) :
    (setNode ns i g).get? j = ns.get? j := by
  unfold setNode
  cases hg : ns.get? i
  · rfl
  · exact List.get?_set_ne _ _ (Ne.symm h)

end Collection

theorem repOk_ids_lt {α : Type} {c : Collection α} {L : List (Nat × α)} (h : RepOk c L) :
    ∀ p ∈ L, p.1 < c.nodes.length := by
  intro p hp
  obtain ⟨n, hn, _, _⟩ := seg_mem h.seg_ok p hp
  exact get?_some_lt hn

theorem repOk_pairwise {α : Type} {c : Collection α} {L : List (Nat × α)} (h : RepOk c L) :
    (L.map Prod.fst).Pairwise (· < ·) :=
  List.chain'_iff_pairwise.mp h.incr

theorem headPtr_any {α : Type} {L : List (Nat × α)} (h : L ≠ []) (nx nx' : Option Nat) :
    headPtr L nx = headPtr L nx' := by
  cases L with
  | nil => exact absurd rfl h
  | cons a rest => cases a; rfl

theorem get?_append_single {β : Type} (l : List β) (x : β) (i : Nat) :
    (l ++ [x]).get? i =
      if i < l.length then l.get? i else if i = l.length then some x else none := by
  rcases Nat.lt_trichotomy i l.length with hi | hi | hi
  · rw [List.get?_append hi, if_pos hi]
  · subst hi
    rw [List.get?_concat_length, if_neg (by omega), if_pos rfl]
  · rw [if_neg (by omega), if_neg (by omega), List.get?_eq_none.mpr (by simp; omega)]

theorem endPtr_concat {α : Type} (pr : Option Nat) (A : List (Nat × α)) (p : Nat) (m : α) :
    endPtr pr (A ++ [(p, m)]) = some p := by
  simp [endPtr, List.getLast?_concat]

theorem repOk_subscribe {α : Type} {c : Collection α} {L : List (Nat × α)}
    (h : RepOk c L) (cb : α) :
    (c.subscribe cb).1 = c.nodes.length ∧
      RepOk (c.subscribe cb).2 (L ++ [(c.nodes.length, cb)]) := by
  rcases List.eq_nil_or_concat L with rfl | ⟨A, pm, rfl⟩
  · have hlast : c.last = none := h.last_ok
    have hfirst : c.first = none := h.first_ok
    refine ⟨by simp [Collection.subscribe, hlast], ?_⟩
    have hc' : (c.subscribe cb).2 =
        { nodes := c.nodes ++ [{ cb := cb, next := none, prev := none, subscribed := true }],
          first := some c.nodes.length, last := some c.nodes.length } := by
      simp [Collection.subscribe, hlast]
    rw [hc']
    constructor
    · exact ⟨_, List.get?_concat_length _ _, rfl, rfl, rfl, rfl, trivial⟩
    · rfl
    · rfl
    · simp
    · intro i n hget hsub
      rw [get?_append_single] at hget
      split at hget
      · have := h.dead i n hget hsub
        simp at this
      · split at hget
        · simp_all
        · exact absurd hget (by simp)
    · intro i n j hget hnext
      rw [get?_append_single] at hget
      split at hget
      · obtain ⟨h1, h2⟩ := h.nextIncr i n j hget hnext
        simp only [List.length_append, List.length_cons, List.length_nil]
        omega
      · split at hget
        · obtain rfl := Option.some_injective _ hget
          exact absurd hnext (by simp)
        · exact absurd hget (by simp)
  · obtain ⟨p, m⟩ := pm
    rw [List.concat_eq_append] at h ⊢
    have hlast : c.last = some p := by
      have := h.last_ok
      rwa [endPtr_concat] at this
    have hmem : (p, m) ∈ A ++ [(p, m)] := by simp
    have hplen : p < c.nodes.length := repOk_ids_lt h (p, m) hmem
    obtain ⟨hsegA, hsegP⟩ := (seg_append c A [(p, m)] none none).mp h.seg_ok
    obtain ⟨pn, hpn, hpnsub, hpncb, hpnprev, hpnnext, -⟩ := hsegP
    have hAlt : ∀ q ∈ A, q.1 < p := by
      intro q hq
      have hpw := repOk_pairwise h
      rw [List.map_append, List.pairwise_append] at hpw
      exact hpw.2.2 q.1 (List.mem_map_of_mem Prod.fst hq) p (by simp)
    have hc' : (c.subscribe cb).2 =
        { nodes := Collection.setNode
            (c.nodes ++ [{ cb := cb, next := none, prev := some p, subscribed := true }]) p
            (fun n => { n with next := some c.nodes.length }),
          first := c.first, last := some c.nodes.length } := by
      simp [Collection.subscribe, hlast]
    refine ⟨by simp [Collection.subscribe, hlast], ?_⟩
    rw [hc']
    set len := c.nodes.length with hlen
    set nw : LNode α := { cb := cb, next := none, prev := some p, subscribed := true } with hnw
    have hgetp : (c.nodes ++ [nw]).get? p = some pn := by
      rw [get?_append_single, if_pos hplen]
      exact hpn
    have hp' : (Collection.setNode (c.nodes ++ [nw]) p
        (fun n => { n with next := some len })).get? p = some { pn with next := some len } :=
      Collection.get?_setNode_self hgetp _
    have hq : ∀ q, q ≠ p → (Collection.setNode (c.nodes ++ [nw]) p
        (fun n => { n with next := some len })).get? q = (c.nodes ++ [nw]).get? q :=
      fun q hqp => Collection.get?_setNode_ne _ _ _ hqp
    have hlen' : (Collection.setNode (c.nodes ++ [nw]) p
        (fun n => { n with next := some len })).length = len + 1 := by
      rw [Collection.setNode_length]
      simp [hlen]
    constructor
    · -- seg for A ++ [(p,m)] ++ [(len,cb)]
      rw [List.append_assoc]
      refine (seg_append _ A ([(p, m)] ++ [(len, cb)]) none none).mpr ⟨?_, ?_⟩
      · refine seg_frame (fun q hqA => ?_) none _ hsegA
        have hqp : q.1 ≠ p := Nat.ne_of_lt (hAlt q hqA)
        have hqlen : q.1 < len := repOk_ids_lt h q (List.mem_append_left _ hqA)
        rw [hq q.1 hqp, get?_append_single, if_pos hqlen]
      · refine ⟨{ pn with next := some len }, hp', hpnsub, hpncb, hpnprev, rfl, ?_⟩
        refine ⟨nw, ?_, rfl, rfl, ?_, rfl, trivial⟩
        · rw [hq len (by omega), get?_append_single, if_neg (by omega), if_pos rfl]
        · rfl
    · -- first
      have hne : A ++ [(p, m)] ≠ [] := by simp
      rw [headPtr_append, headPtr_any hne (headPtr [(len, cb)] none) none]
      exact h.first_ok
    · show some len = endPtr none ((A ++ [(p, m)]) ++ [(len, cb)])
      rw [endPtr_concat]
    · -- incr
      rw [List.map_append, List.chain'_iff_pairwise, List.pairwise_append]
      refine ⟨repOk_pairwise h, by simp, ?_⟩
      intro x hx y hy
      simp only [List.map_cons, List.map_nil, List.mem_singleton] at hy
      subst hy
      obtain ⟨q, hqmem, rfl⟩ := List.mem_map.mp hx
      exact repOk_ids_lt h q hqmem
    · -- dead
      intro i n hget hsub
      rcases eq_or_ne i p with rfl | hip
      · rw [List.map_append]
        exact List.mem_append_left _ (h.dead i pn hpn hpnsub)
      · rw [hq i hip, get?_append_single] at hget
        split at hget
        · rw [List.map_append]
          exact List.mem_append_left _ (h.dead i n hget hsub)
        · split at hget
          · simp_all
          · exact absurd hget (by simp)
    · -- nextIncr
      intro i n j hget hnext
      rw [hlen']
      rcases eq_or_ne i p with rfl | hip
      · rw [hp'] at hget
        obtain rfl := Option.some_injective _ hget
        simp only at hnext
        obtain rfl := Option.some_injective _ hnext
        exact ⟨hplen, by omega⟩
      · rw [hq i hip, get?_append_single] at hget
        split at hget
        · obtain ⟨h1, h2⟩ := h.nextIncr i n j hget hnext
          exact ⟨h1, by omega⟩
        · split at hget
          · obtain rfl := Option.some_injective _ hget
            exact absurd hnext (by simp [hnw])
          · exact absurd hget (by simp)

theorem get?_setNode_map {α : Type} (ns : List (LNode α)) (i : Nat) (g : LNode α → LNode α) :
    (Collection.setNode ns i g).get? i = (ns.get? i).map g := by
  unfold Collection.setNode
  cases h : ns.get? i
  · rw [h]
    rfl
  · rw [List.get?_set_eq_of_lt _ (get?_some_lt h)]
    rfl

/-- Pointwise effect of `unsubscribe` on the node store, assuming the captured
node is live, the collection is nonempty, and the node's links do not alias the
node itself (true of every reachable collection since forward links strictly
increase). -/
theorem unsubscribe_get? {α : Type} {c : Collection α} {j : Nat} {jn : LNode α}
    (hj : c.nodes.get? j = some jn) (hsub : jn.subscribed = true) (hfirst : c.first ≠ none)
    (hnextne : ∀ nn, jn.next = some nn → nn ≠ j)
    (hprevne : ∀ pp, jn.prev = some pp → pp ≠ j ∧ jn.next ≠ some pp) :
    ∀ i, (c.unsubscribe j).nodes.get? i =
      if i = j then some { jn with subscribed := false }
      else if jn.next = some i then (c.nodes.get? i).map (fun n => { n with prev := jn.prev })
      else if jn.prev = some i then (c.nodes.get? i).map (fun n => { n with next := jn.next })
      else c.nodes.get? i := by
  intro i
  have hguard : ¬(jn.subscribed = false ∨ c.first = none) := by
    simp [hsub]
    intro hc
    exact hfirst hc
  simp only [Collection.unsubscribe, hj, if_neg hguard]
  cases hnx : jn.next with
  | none =>
    cases hpv : jn.prev with
    | none =>
      simp only [hnx, hpv]
      rcases eq_or_ne i j with rfl | hij
      · rw [if_pos rfl, get?_setNode_map, hj]
        simp [hnx, hpv]
      · rw [if_neg hij, if_neg (by simp), if_neg (by simp),
          Collection.get?_setNode_ne _ _ _ hij]
    | some pp =>
      obtain ⟨hppj, -⟩ := hprevne pp hpv
      simp only [hnx, hpv]
      rcases eq_or_ne i j with rfl | hij
      · rw [if_pos rfl, Collection.get?_setNode_ne _ _ _ (Ne.symm hppj),
          get?_setNode_map, hj]
        simp [hnx, hpv]
      · rw [if_neg hij, if_neg (by simp)]
        rcases eq_or_ne i pp with rfl | hipp
        · rw [if_pos rfl, get?_setNode_map, Collection.get?_setNode_ne _ _ _ hij]
        · rw [if_neg (by simp; exact fun hc => hipp hc.symm),
            Collection.get?_setNode_ne _ _ _ hipp, Collection.get?_setNode_ne _ _ _ hij]
  | some nn =>
    have hnnj : nn ≠ j := hnextne nn hnx
    cases hpv : jn.prev with
    | none =>
      simp only [hnx, hpv]
      rcases eq_or_ne i j with rfl | hij
      · rw [if_pos rfl, Collection.get?_setNode_ne _ _ _ (Ne.symm hnnj),
          get?_setNode_map, hj]
        simp [hnx, hpv]
      · rw [if_neg hij]
        rcases eq_or_ne i nn with rfl | hinn
        · rw [if_pos rfl, get?_setNode_map, Collection.get?_setNode_ne _ _ _ hij]
        · rw [if_neg (by simp; exact fun hc => hinn hc.symm), if_neg (by simp),
            Collection.get?_setNode_ne _ _ _ hinn, Collection.get?_setNode_ne _ _ _ hij]
    | some pp =>
      obtain ⟨hppj, hppnn'⟩ := hprevne pp hpv
      have hppnn : pp ≠ nn := by
        intro hc
        exact hppnn' (by rw [hnx, hc])
      simp only [hnx, hpv]
      rcases eq_or_ne i j with rfl | hij
      · rw [if_pos rfl, Collection.get?_setNode_ne _ _ _ (Ne.symm hppj),
          Collection.get?_setNode_ne _ _ _ (Ne.symm hnnj), get?_setNode_map, hj]
        simp [hnx, hpv]
      · rw [if_neg hij]
        rcases eq_or_ne i nn with rfl | hinn
        · rw [if_pos rfl, Collection.get?_setNode_ne _ _ _ (Ne.symm hppnn),
            get?_setNode_map, Collection.get?_setNode_ne _ _ _ hij]
        · rw [if_neg (by simp; exact fun hc => hinn hc.symm)]
          rcases eq_or_ne i pp with rfl | hipp
          · rw [if_pos rfl, get?_setNode_map, Collection.get?_setNode_ne _ _ _ hinn,
              Collection.get?_setNode_ne _ _ _ hij]
          · rw [if_neg (by simp; exact fun hc => hipp hc.symm),
              Collection.get?_setNode_ne _ _ _ hipp, Collection.get?_setNode_ne _ _ _ hinn,
              Collection.get?_setNode_ne _ _ _ hij]

theorem unsubscribe_first {α : Type} {c : Collection α} {j : Nat} {jn : LNode α}
    (hj : c.nodes.get? j = some jn) (hsub : jn.subscribed = true) (hfirst : c.first ≠ none) :
    (c.unsubscribe j).first = if jn.prev = none then jn.next else c.first := by
  have hguard : ¬(jn.subscribed = false ∨ c.first = none) := by
    simp [hsub]
    intro hc
    exact hfirst hc
  simp only [Collection.unsubscribe, hj, if_neg hguard]
  cases hnx : jn.next <;> cases hpv : jn.prev <;> simp [hnx, hpv]

theorem unsubscribe_last {α : Type} {c : Collection α} {j : Nat} {jn : LNode α}
    (hj : c.nodes.get? j = some jn) (hsub : jn.subscribed = true) (hfirst : c.first ≠ none) :
    (c.unsubscribe j).last = if jn.next = none then jn.prev else c.last := by
  have hguard : ¬(jn.subscribed = false ∨ c.first = none) := by
    simp [hsub]
    intro hc
    exact hfirst hc
  simp only [Collection.unsubscribe, hj, if_neg hguard]
  cases hnx : jn.next <;> cases hpv : jn.prev <;> simp [hnx, hpv]

theorem unsubscribe_length {α : Type} (c : Collection α) (j : Nat) :
    (c.unsubscribe j).nodes.length = c.nodes.length := by
  unfold Collection.unsubscribe
  split
  · rfl
  next node heq =>
    split
    · rfl
    · rcases hnx : node.next with _ | nn <;> rcases hpv : node.prev with _ | pp <;>
        simp [hnx, hpv, Collection.setNode_length]

theorem endPtr_append {α : Type} (pr : Option Nat) (X Y : List (Nat × α)) :
    endPtr pr (X ++ Y) = endPtr (endPtr pr X) Y := by
  rcases List.eq_nil_or_concat Y with rfl | ⟨Y', q, rfl⟩
  · simp [endPtr]
  · obtain ⟨qi, qk⟩ := q
    rw [List.concat_eq_append, ← List.append_assoc, endPtr_concat, endPtr_concat]

theorem endPtr_any {α : Type} {B : List (Nat × α)} (h : B ≠ []) (pr pr' : Option Nat) :
    endPtr pr B = endPtr pr' B := by
  rcases List.eq_nil_or_concat B with rfl | ⟨B', q, rfl⟩
  · exact absurd rfl h
  · obtain ⟨qi, qk⟩ := q
    rw [List.concat_eq_append, endPtr_concat, endPtr_concat]

theorem unsubscribe_not_mem {α : Type} {c : Collection α} {L : List (Nat × α)}
    (h : RepOk c L) {j : Nat} (hj : j ∉ L.map Prod.fst) : c.unsubscribe j = c := by
  cases hg : c.nodes.get? j with
  | none => simp only [Collection.unsubscribe, hg]
  | some n =>
    cases hsub : n.subscribed with
    | false =>
      simp only [Collection.unsubscribe, hg]
      rw [if_pos (Or.inl hsub)]
    | true => exact absurd (h.dead j n hg hsub) hj

theorem repOk_unsubscribe_mem {α : Type} {c : Collection α} {A B : List (Nat × α)}
    {j : Nat} {k : α} (h : RepOk c (A ++ (j, k) :: B)) :
    RepOk (c.unsubscribe j) (A ++ B) := by
  obtain ⟨hsegA, hsegJB⟩ := (seg_append c A ((j, k) :: B) none none).mp h.seg_ok
  obtain ⟨jn, hjn, hjnsub, hjncb, hjnprev, hjnnext, hsegB⟩ := hsegJB
  have hfirst : c.first ≠ none := by
    rw [h.first_ok, headPtr_append]
    cases A with
    | nil => simp [headPtr]
    | cons a A'' => cases a; simp [headPtr]
  have hpw : (List.map Prod.fst (A ++ (j, k) :: B)).Pairwise (· < ·) := repOk_pairwise h
  rw [List.map_append, List.map_cons] at hpw
  obtain ⟨pwA, pwJB, cross⟩ := List.pairwise_append.mp hpw
  obtain ⟨hjB', pwB⟩ := List.pairwise_cons.mp pwJB
  have hAj : ∀ q ∈ A, q.1 < j := fun q hq =>
    cross q.1 (List.mem_map_of_mem Prod.fst hq) j (List.mem_cons_self _ _)
  have hjB : ∀ q ∈ B, j < q.1 := fun q hq => hjB' q.1 (List.mem_map_of_mem Prod.fst hq)
  have hnextgt : ∀ nn, jn.next = some nn → j < nn := by
    intro nn hnn
    rw [hjnnext] at hnn
    cases B with
    | nil => exact absurd hnn (by simp [headPtr])
    | cons b B'' =>
      obtain ⟨bi, bk⟩ := b
      simp only [headPtr, Option.some.injEq] at hnn
      have := hjB (bi, bk) (List.mem_cons_self _ _)
      omega
  have hprevlt : ∀ pp, jn.prev = some pp → pp < j := by
    intro pp hpp
    rw [hjnprev] at hpp
    rcases List.eq_nil_or_concat A with rfl | ⟨A', q, rfl⟩
    · exact absurd hpp (by simp [endPtr])
    · obtain ⟨qi, qk⟩ := q
      rw [List.concat_eq_append, endPtr_concat] at hpp
      have hq := Option.some_injective _ hpp
      have := hAj (qi, qk) (by simp)
      omega
  have hnextne : ∀ nn, jn.next = some nn → nn ≠ j := fun nn hnn =>
    Nat.ne_of_gt (hnextgt nn hnn)
  have hprevne : ∀ pp, jn.prev = some pp → pp ≠ j ∧ jn.next ≠ some pp := by
    intro pp hpp
    refine ⟨Nat.ne_of_lt (hprevlt pp hpp), fun hc => ?_⟩
    have := hnextgt pp hc
    have := hprevlt pp hpp
    omega
  have hdesc := unsubscribe_get? hjn hjnsub hfirst hnextne hprevne
  have hfst := unsubscribe_first hjn hjnsub hfirst
  have hlst := unsubscribe_last hjn hjnsub hfirst
  have hlen := unsubscribe_length c j
  constructor
  · -- seg
    refine (seg_append _ A B none none).mpr ⟨?_, ?_⟩
    · -- left part, with the last node of A retargeted to the head of B
      rcases List.eq_nil_or_concat A with rfl | ⟨A', q, rfl⟩
      · trivial
      · obtain ⟨pp0, km⟩ := q
        rw [List.concat_eq_append] at hsegA hjnprev pwA hAj ⊢
        have hjnprev' : jn.prev = some pp0 := by
          rw [hjnprev, endPtr_concat]
        obtain ⟨hsegA', hsegP⟩ := (seg_append c A' [(pp0, km)] none _).mp hsegA
        obtain ⟨an, han, hansub, hancb, hanprev, hannext, -⟩ := hsegP
        have hA'lt : ∀ q ∈ A', q.1 < pp0 := by
          intro q hq
          rw [List.map_append] at pwA
          obtain ⟨-, -, crossA⟩ := List.pairwise_append.mp pwA
          exact crossA q.1 (List.mem_map_of_mem Prod.fst hq) pp0 (by simp)
        refine (seg_append _ A' [(pp0, km)] none _).mpr ⟨?_, ?_⟩
        · refine seg_frame (fun q hq => ?_) none _ hsegA'
          have hq1 : q.1 < pp0 := hA'lt q hq
          have hq2 : q.1 < j := hAj q (by simp [hq])
          rw [hdesc q.1, if_neg (by omega), if_neg ?_, if_neg ?_]
          · intro hc
            rw [hjnprev'] at hc
            have := Option.some_injective _ hc
            omega
          · intro hc
            have := hnextgt q.1 hc
            omega
        · refine ⟨{ an with next := jn.next }, ?_, hansub, hancb, hanprev, ?_, trivial⟩
          · rw [hdesc pp0, if_neg ?_, if_neg ?_, if_pos hjnprev', han]
            · rfl
            · intro hc
              have := hnextgt pp0 hc
              have := hAj (pp0, km) (by simp)
              omega
            · have := hAj (pp0, km) (by simp)
              omega
          · rw [hjnnext]
            cases B with
            | nil => rfl
            | cons b B'' => cases b; rfl
    · -- right part, with the head of B reattached to the end of A
      cases B with
      | nil => trivial
      | cons b B'' =>
        obtain ⟨nn0, kb⟩ := b
        have hjnnext' : jn.next = some nn0 := by
          rw [hjnnext]; rfl
        obtain ⟨bn, hbn, hbnsub, hbncb, hbnprev, hbnnext, hsegB'⟩ := hsegB
        refine ⟨{ bn with prev := jn.prev }, ?_, hbnsub, hbncb, ?_, hbnnext, ?_⟩
        · rw [hdesc nn0, if_neg ?_, if_pos hjnnext', hbn]
          · rfl
          · have := hjB (nn0, kb) (List.mem_cons_self _ _)
            omega
        · rw [hjnprev]
        · refine seg_frame (fun q hq => ?_) (some nn0) _ hsegB'
          have hq1 : j < q.1 := hjB q (by simp [hq])
          have hq2 : nn0 < q.1 := by
            rw [List.map_cons] at pwB
            obtain ⟨hnn0, -⟩ := List.pairwise_cons.mp pwB
            exact hnn0 q.1 (List.mem_map_of_mem Prod.fst hq)
          rw [hdesc q.1, if_neg (by omega), if_neg ?_, if_neg ?_]
          · intro hc
            have := hprevlt q.1 hc
            omega
          · intro hc
            rw [hjnnext'] at hc
            have := Option.some_injective _ hc
            omega
  · -- first
    rw [hfst]
    cases A with
    | nil =>
      rw [if_pos (by rw [hjnprev]; rfl), hjnnext]
      rfl
    | cons a A'' =>
      obtain ⟨ai, ak⟩ := a
      rw [if_neg ?_, h.first_ok]
      · rfl
      · rw [hjnprev, endPtr_cons]
        rcases List.eq_nil_or_concat A'' with rfl | ⟨A3, q, rfl⟩
        · simp [endPtr]
        · obtain ⟨qi, qk⟩ := q
          rw [List.concat_eq_append, endPtr_concat]
          simp
  · -- last
    rw [hlst]
    cases B with
    | nil =>
      rw [if_pos (by rw [hjnnext]; rfl), hjnprev, List.append_nil]
    | cons b B'' =>
      obtain ⟨bi, bk⟩ := b
      rw [if_neg (by rw [hjnnext]; simp [headPtr]), h.last_ok,
        endPtr_append, endPtr_append]
      simp only [endPtr_cons]
  · -- strictly increasing ids
    rw [List.chain'_iff_pairwise]
    refine List.Pairwise.sublist ?_ (repOk_pairwise h)
    exact List.Sublist.map _ (List.Sublist.append_left (List.sublist_cons_self _ _) A)
  · -- dead nodes stay outside the chain
    intro i n hget hsub
    have himem : i ≠ j → i ∈ List.map Prod.fst (A ++ (j, k) :: B) →
        i ∈ List.map Prod.fst (A ++ B) := by
      intro hij hmem
      rw [List.map_append, List.map_cons] at hmem
      rw [List.map_append]
      rcases List.mem_append.mp hmem with hl | hr
      · exact List.mem_append_left _ hl
      · rcases List.mem_cons.mp hr with rfl | hr'
        · exact absurd rfl hij
        · exact List.mem_append_right _ hr'
    rw [hdesc i] at hget
    rcases eq_or_ne i j with rfl | hij
    · rw [if_pos rfl] at hget
      obtain rfl := Option.some_injective _ hget.symm
      exact absurd hsub (by simp)
    · rw [if_neg hij] at hget
      split at hget
      · obtain ⟨n0, hn0, rfl⟩ := Option.map_eq_some'.mp hget
        exact himem hij (h.dead i n0 hn0 hsub)
      · split at hget
        · obtain ⟨n0, hn0, rfl⟩ := Option.map_eq_some'.mp hget
          exact himem hij (h.dead i n0 hn0 hsub)
        · exact himem hij (h.dead i n hget hsub)
  · -- forward links strictly increase
    intro i n j' hget hnext
    rw [hlen]
    rw [hdesc i] at hget
    rcases eq_or_ne i j with rfl | hij
    · rw [if_pos rfl] at hget
      obtain rfl := Option.some_injective _ hget.symm
      exact h.nextIncr i jn j' hjn hnext
    · rw [if_neg hij] at hget
      split at hget
      next hcnext =>
        obtain ⟨n0, hn0, rfl⟩ := Option.map_eq_some'.mp hget
        exact h.nextIncr i n0 j' hn0 hnext
      next hcnext =>
        split at hget
        next hcprev =>
          obtain ⟨n0, hn0, rfl⟩ := Option.map_eq_some'.mp hget
          obtain ⟨h1, h2⟩ := h.nextIncr j jn j' hjn hnext
          have hilt : i < j := hprevlt i hcprev
          exact ⟨by omega, h2⟩
        next hcprev =>
          exact h.nextIncr i n j' hget hnext

theorem nodup_lt_length_le {l : List Nat} {n : Nat} (h : l.Nodup) (hs : ∀ x ∈ l, x < n) :
    l.length ≤ n := by
  have h1 : l.toFinset.card = l.length := List.toFinset_card_of_nodup h
  have h2 : l.toFinset ⊆ Finset.range n := by
    intro x hx
    rw [Finset.mem_range]
    exact hs x (List.mem_toFinset.mp hx)
  have h3 := Finset.card_le_card h2
  rw [h1, Finset.card_range] at h3
  exact h3

theorem repOk_length_le {α : Type} {c : Collection α} {L : List (Nat × α)} (h : RepOk c L) :
    L.length ≤ c.nodes.length := by
  have hnd : (L.map Prod.fst).Nodup := (repOk_pairwise h).nodup
  have hlt : ∀ x ∈ L.map Prod.fst, x < c.nodes.length := by
    intro x hx
    obtain ⟨q, hq, rfl⟩ := List.mem_map.mp hx
    exact repOk_ids_lt h q hq
  have := nodup_lt_length_le hnd hlt
  rwa [List.length_map] at this

theorem chainEntries_of_seg {α : Type} {c : Collection α} {R : List (Nat × α)}
    {pr : Option Nat} (hs : seg c pr R none) :
    ∀ fuel, R.length + 1 ≤ fuel → c.chainEntries fuel (headPtr R none) = R := by
  induction R generalizing pr with
  | nil =>
    intro fuel hf
    match fuel, hf with
    | fuel + 1, _ => rfl
  | cons a R' ih =>
    obtain ⟨i, k⟩ := a
    obtain ⟨n, h1, h2, h3, h4, h5, h6⟩ := hs
    intro fuel hf
    match fuel, hf with
    | fuel + 1, hf =>
      show c.chainEntries (fuel + 1) (some i) = (i, k) :: R'
      simp only [Collection.chainEntries, h1]
      rw [h5, h3, ih h6 fuel (by simp at hf; omega)]

/-- `get()` returns exactly the live chain: insertion order minus removed
nodes. -/
theorem repOk_get {α : Type} {c : Collection α} {L : List (Nat × α)} (h : RepOk c L) :
    c.get = L := by
  unfold Collection.get
  rw [h.first_ok]
  exact chainEntries_of_seg h.seg_ok _ (by have := repOk_length_le h; omega)

/-- `RepOk` is preserved by `unsubscribe` for an arbitrary target node:
unsubscribing removes exactly that node from the chain (a no-op when it is
not live). -/
theorem repOk_unsubscribe {α : Type} {c : Collection α} {L : List (Nat × α)}
    (h : RepOk c L) (j : Nat) :
    RepOk (c.unsubscribe j) (L.filter (fun p => p.1 ≠ j)) := by
  by_cases hj : j ∈ L.map Prod.fst
  · obtain ⟨q, hq, hq1⟩ := List.mem_map.mp hj
    obtain ⟨A, B, rfl⟩ := List.mem_iff_append.mp hq
    obtain ⟨jq, kq⟩ := q
    simp only at hq1
    subst hq1
    have hpw : (List.map Prod.fst (A ++ (jq, kq) :: B)).Pairwise (· < ·) := repOk_pairwise h
    rw [List.map_append, List.map_cons] at hpw
    obtain ⟨pwA, pwJB, cross⟩ := List.pairwise_append.mp hpw
    obtain ⟨hjB', -⟩ := List.pairwise_cons.mp pwJB
    have hfilter : (A ++ (jq, kq) :: B).filter (fun p => p.1 ≠ jq) = A ++ B := by
      rw [List.filter_append, List.filter_cons]
      have hAfil : A.filter (fun p => p.1 ≠ jq) = A := by
        rw [List.filter_eq_self]
        intro p hp
        have := cross p.1 (List.mem_map_of_mem Prod.fst hp) jq (List.mem_cons_self _ _)
        simp
        omega
      have hBfil : B.filter (fun p => p.1 ≠ jq) = B := by
        rw [List.filter_eq_self]
        intro p hp
        have := hjB' p.1 (List.mem_map_of_mem Prod.fst hp)
        simp
        omega
      rw [hAfil, hBfil, if_neg (by simp)]
    rw [hfilter]
    exact repOk_unsubscribe_mem h
  · rw [unsubscribe_not_mem h hj]
    have hself : L.filter (fun p => p.1 ≠ j) = L := by
      rw [List.filter_eq_self]
      intro p hp
      simp
      intro hc
      exact hj (hc ▸ List.mem_map_of_mem Prod.fst hp)
    rw [hself]
    exact h

theorem repOk_empty {α : Type} : RepOk (Collection.empty : Collection α) [] := by
  constructor
  · trivial
  · rfl
  · rfl
  · simp
  · intro i n hget hsub
    exact absurd hget (by simp [Collection.empty])
  · intro i n j hget hnext
    exact absurd hget (by simp [Collection.empty])

theorem subscribe_length {α : Type} (c : Collection α) (cb : α) :
    (c.subscribe cb).2.nodes.length = c.nodes.length + 1 := by
  cases hl : c.last <;>
    simp [Collection.subscribe, hl, Collection.setNode_length]

/-! ## Claim C3: sequences of subscribe/unsubscribe against the ghost model -/

/-- One external operation on a single listener collection: register a new
callback, or invoke the unsubscribe closure captured for node `i`. -/
inductive RegOp where
  | sub (cb : Nat)
  | unsub (i : Nat)
deriving Repr, DecidableEq

def runRegAux : List RegOp → Collection Nat → Collection Nat
  | [], c => c
  | .sub cb :: rest, c => runRegAux rest (c.subscribe cb).2
  | .unsub i :: rest, c => runRegAux rest (c.unsubscribe i)

/-- The collection after running `ops` from the fresh collection. -/
def runReg (ops : List RegOp) : Collection Nat := runRegAux ops Collection.empty

/-- Ghost model of the registry: the list of `(listener id, callback)` pairs
still subscribed, in the order the subscribe calls occurred, together with the
number of subscribe calls so far (which is also the next listener id). -/
def liveSpecAux : List RegOp → List (Nat × Nat) × Nat → List (Nat × Nat) × Nat
  | [], s => s
  | .sub cb :: rest, (live, cnt) => liveSpecAux rest (live ++ [(cnt, cb)], cnt + 1)
  | .unsub i :: rest, (live, cnt) => liveSpecAux rest (live.filter (fun p => p.1 ≠ i), cnt)

def liveSpec (ops : List RegOp) : List (Nat × Nat) := (liveSpecAux ops ([], 0)).1

theorem runRegAux_repOk : ∀ (ops : List RegOp) (c : Collection Nat) (live : List (Nat × Nat)),
    RepOk c live →
    RepOk (runRegAux ops c) (liveSpecAux ops (live, c.nodes.length)).1 ∧
      (liveSpecAux ops (live, c.nodes.length)).2 = (runRegAux ops c).nodes.length := by
  intro ops
  induction ops with
  | nil =>
    intro c live h
    exact ⟨h, rfl⟩
  | cons op rest ih =>
    intro c live h
    cases op with
    | sub cb =>
      obtain ⟨h1, h2⟩ := repOk_subscribe h cb
      have := ih (c.subscribe cb).2 (live ++ [(c.nodes.length, cb)]) h2
      rwa [subscribe_length] at this
    | unsub i =>
      have := ih (c.unsubscribe i) (live.filter (fun p => p.1 ≠ i)) (repOk_unsubscribe h i)
      rwa [unsubscribe_length] at this

theorem runReg_repOk (ops : List RegOp) : RepOk (runReg ops) (liveSpec ops) :=
  (runRegAux_repOk ops Collection.empty [] repOk_empty).1

/-- Claim C3: for every finite sequence of subscribe and unsubscribe calls on
a single listener collection (no intervening clear), `get()` returns exactly
the listeners whose unsubscribe function has not been invoked, as
`(id, callback)` pairs in the order their subscribe calls occurred. -/
theorem claim_C3 (ops : List RegOp) : (runReg ops).get = liveSpec ops :=
  repOk_get (runReg_repOk ops)


/-- Bundled description of `unsubscribe` at a live node of a well-formed
collection. -/
theorem repOk_desc {α : Type} {c : Collection α} {M : List (Nat × α)} (h : RepOk c M)
    {j : Nat} (hj : j ∈ M.map Prod.fst) :
    ∃ jn, c.nodes.get? j = some jn ∧ jn.subscribed = true ∧
      (∀ nn, jn.next = some nn → j < nn) ∧ (∀ pp, jn.prev = some pp → pp < j) ∧
      (∀ i, (c.unsubscribe j).nodes.get? i =
        if i = j then some { jn with subscribed := false }
        else if jn.next = some i then (c.nodes.get? i).map (fun n => { n with prev := jn.prev })
        else if jn.prev = some i then (c.nodes.get? i).map (fun n => { n with next := jn.next })
        else c.nodes.get? i) := by
  obtain ⟨q, hq, hq1⟩ := List.mem_map.mp hj
  obtain ⟨A, B, rfl⟩ := List.mem_iff_append.mp hq
  obtain ⟨jq, kq⟩ := q
  simp only at hq1
  subst hq1
  obtain ⟨hsegA, hsegJB⟩ := (seg_append c A ((jq, kq) :: B) none none).mp h.seg_ok
  obtain ⟨jn, hjn, hjnsub, hjncb, hjnprev, hjnnext, hsegB⟩ := hsegJB
  have hfirst : c.first ≠ none := by
    rw [h.first_ok, headPtr_append]
    cases A with
    | nil => simp [headPtr]
    | cons a A'' => cases a; simp [headPtr]
  have hpw : (List.map Prod.fst (A ++ (jq, kq) :: B)).Pairwise (· < ·) := repOk_pairwise h
  rw [List.map_append, List.map_cons] at hpw
  obtain ⟨pwA, pwJB, cross⟩ := List.pairwise_append.mp hpw
  have hAj : ∀ q ∈ A, q.1 < jq := fun q hqa =>
    cross q.1 (List.mem_map_of_mem Prod.fst hqa) jq (List.mem_cons_self _ _)
  have hnextgt : ∀ nn, jn.next = some nn → jq < nn := fun nn hnn =>
    (h.nextIncr jq jn nn hjn hnn).1
  have hprevlt : ∀ pp, jn.prev = some pp → pp < jq := by
    intro pp hpp
    rw [hjnprev] at hpp
    rcases List.eq_nil_or_concat A with rfl | ⟨A', q', rfl⟩
    · exact absurd hpp (by simp [endPtr])
    · obtain ⟨qi, qk⟩ := q'
      rw [List.concat_eq_append, endPtr_concat] at hpp
      have hq' := Option.some_injective _ hpp
      have := hAj (qi, qk) (by simp)
      omega
  refine ⟨jn, hjn, hjnsub, hnextgt, hprevlt, ?_⟩
  refine unsubscribe_get? hjn hjnsub hfirst ?_ ?_
  · exact fun nn hnn => Nat.ne_of_gt (hnextgt nn hnn)
  · intro pp hpp
    refine ⟨Nat.ne_of_lt (hprevlt pp hpp), fun hc => ?_⟩
    have := hnextgt pp hc
    have := hprevlt pp hpp
    omega

/-- In a well-formed chain, a live node whose `prev` points at `i` is exactly
the successor of `i` in the chain. -/
theorem chain_succ_of_prev {α : Type} {c : Collection α} {P R1 : List (Nat × α)}
    {i : Nat} {k : α} (h : RepOk c (P ++ (i, k) :: R1)) {j : Nat} {jn : LNode α}
    (hjmem : j ∈ (P ++ (i, k) :: R1).map Prod.fst)
    (hjn : c.nodes.get? j = some jn) (hprev : jn.prev = some i) :
    headPtr R1 none = some j := by
  obtain ⟨q, hq, hq1⟩ := List.mem_map.mp hjmem
  obtain ⟨jq, kq⟩ := q
  simp only at hq1
  subst hq1
  obtain ⟨X, Y, hXY⟩ := List.mem_iff_append.mp hq
  obtain ⟨hsegX, hsegJY⟩ := (seg_append c X ((jq, kq) :: Y) none none).mp (hXY ▸ h.seg_ok)
  obtain ⟨jn', hjn', hjnsub', hjncb', hjnprev', hjnnext', hsegY⟩ := hsegJY
  rw [hjn] at hjn'
  obtain rfl := Option.some_injective _ hjn'.symm
  rw [hprev] at hjnprev'
  rcases List.eq_nil_or_concat X with rfl | ⟨X', q', rfl⟩
  · exact absurd hjnprev'.symm (by simp [endPtr])
  · obtain ⟨xi, xk⟩ := q'
    rw [List.concat_eq_append, endPtr_concat] at hjnprev'
    have hxi : i = xi := Option.some_injective _ hjnprev'
    subst hxi
    rw [List.concat_eq_append] at hXY
    -- the two decompositions place `xi = i` at the same position
    have hnd : ((P ++ (i, k) :: R1).map Prod.fst).Nodup := (repOk_pairwise h).nodup
    have hpos1 : ((P ++ (i, k) :: R1).map Prod.fst).get? P.length = some i := by
      rw [List.map_append, List.get?_append_right (by simp)]
      simp
    have hpos2 : ((P ++ (i, k) :: R1).map Prod.fst).get? X'.length = some i := by
      rw [hXY, List.append_assoc, List.map_append, List.get?_append_right (by simp)]
      simp
    have hlen : X'.length = P.length := by
      refine List.get?_inj ?_ hnd (by rw [hpos2, hpos1])
      have := get?_some_lt hpos2
      exact this
    have hmid1 : (P ++ (i, k) :: R1).get? (P.length + 1) = R1.get? 0 := by
      rw [List.get?_append_right (by omega)]
      simp [Nat.sub_self, Nat.add_sub_cancel_left]
    have hmid2 : (P ++ (i, k) :: R1).get? (P.length + 1) = some (jq, kq) := by
      rw [hXY, List.append_assoc, ← hlen, List.get?_append_right (by simp)]
      simp
    rw [hmid1] at hmid2
    cases R1 with
    | nil => exact absurd hmid2 (by simp)
    | cons r R2 =>
      simp only [List.get?] at hmid2
      obtain rfl := Option.some_injective _ hmid2
      rfl

/-! ## Claims C4 and C8: the notify dispatch loop -/

/-- What a callback invoked during a notify pass does: nothing, invoke the
unsubscribe closure captured for node `j` of the same registry, or raise. -/
inductive RAct where
  | pure
  | unsub (j : Nat)
  | throw
deriving Repr, DecidableEq

/-- Outcome of a notify pass: normal completion, or an exception escaping the
dispatch loop; both carry the final collection and the invoked callbacks in
invocation order. -/
inductive NRes where
  | ok (c : Collection Nat) (log : List Nat)
  | exn (c : Collection Nat) (log : List Nat)
deriving Repr, DecidableEq

/-- The dispatch loop of `notify()`: `let listener = first; while (listener)
{ listener.callback(); listener = listener.next }`.  A callback may mutate the
collection through an unsubscribe closure, so the node is re-read before
following `next`.  The external batching wrapper invokes the loop
synchronously and is the identity here.  `none` is fuel exhaustion, which
never happens for a well-formed collection. -/
def notifyAux (env : Nat → RAct) : Nat → Collection Nat → Option Nat → List Nat → Option NRes
  | 0, _, _, _ => none
  | _ + 1, c, none, log => some (.ok c log)
  | fuel + 1, c, some i, log =>
    match c.nodes.get? i with
    | none => none
    | some n =>
      match env n.cb with
      | .throw => some (.exn c (log ++ [n.cb]))
      | .pure => notifyAux env fuel c n.next (log ++ [n.cb])
      | .unsub j =>
        match (c.unsubscribe j).nodes.get? i with
        | none => none
        | some n' => notifyAux env fuel (c.unsubscribe j) n'.next (log ++ [n.cb])

/-- `notify()` on a collection, with enough fuel for any well-formed chain. -/
def Collection.notify (env : Nat → RAct) (c : Collection Nat) : Option NRes :=
  notifyAux env (c.nodes.length + 1) c c.first []

/-- Specification walk over the live list: invoke each listener in order; an
unsubscribe drops the target from the remaining walk; a throw stops the pass
right after the throwing listener. -/
def specNotify (env : Nat → RAct) : List (Nat × Nat) → List Nat × Bool
  | [] => ([], false)
  | (_, k) :: rest =>
    match env k with
    | .throw => ([k], true)
    | .pure =>
      let r := specNotify env rest
      (k :: r.1, r.2)
    | .unsub j =>
      let r := specNotify env (rest.filter (fun p => p.1 ≠ j))
      (k :: r.1, r.2)
termination_by L => L.length
decreasing_by
  · simp only [List.length_cons]
    omega
  · simp only [List.length_cons]
    have := List.length_filter_le (fun p => decide (p.1 ≠ j)) rest
    omega

/-- Re-reading the current node after its callback ran one unsubscribe: the
node is still present and its `next` pointer is exactly the head of the
filtered remainder of the chain. -/
theorem unsub_reread {α : Type} {c : Collection α} {P R1 : List (Nat × α)}
    {i : Nat} {k : α} (hrep : RepOk c (P ++ (i, k) :: R1)) (j : Nat) :
    ∃ n2, (c.unsubscribe j).nodes.get? i = some n2 ∧
      n2.next = headPtr (R1.filter (fun p => p.1 ≠ j)) none := by
  obtain ⟨-, hsegR⟩ := (seg_append c P ((i, k) :: R1) none none).mp hrep.seg_ok
  obtain ⟨n, hn, hnsub, hncb, hnprev, hnnext, hsegR1⟩ := hsegR
  have hpw : (List.map Prod.fst (P ++ (i, k) :: R1)).Pairwise (· < ·) := repOk_pairwise hrep
  rw [List.map_append, List.map_cons] at hpw
  obtain ⟨pwP, pwIR1, crossP⟩ := List.pairwise_append.mp hpw
  obtain ⟨hiR1, pwR1⟩ := List.pairwise_cons.mp pwIR1
  have hR1gt : ∀ q ∈ R1, i < q.1 := fun q hq => hiR1 q.1 (List.mem_map_of_mem Prod.fst hq)
  by_cases hjm : j ∈ (P ++ (i, k) :: R1).map Prod.fst
  · obtain ⟨jn, hjn, hjnsub, hnextgt, hprevlt, hdesc⟩ := repOk_desc hrep hjm
    rcases eq_or_ne i j with rfl | hij
    · -- the listener unsubscribed itself
      rw [hjn] at hn
      obtain rfl := Option.some_injective _ hn.symm
      refine ⟨{ n with subscribed := false }, by rw [hdesc i, if_pos rfl], ?_⟩
      have hfil : R1.filter (fun p => p.1 ≠ i) = R1 := by
        rw [List.filter_eq_self]
        intro p hp
        have := hR1gt p hp
        simp
        omega
      rw [hfil]
      exact hnnext
    · rw [hdesc i, if_neg hij]
      by_cases hjni : jn.next = some i
      · -- the unsubscribed node was the current node's predecessor
        rw [if_pos hjni, hn]
        refine ⟨{ n with prev := jn.prev }, rfl, ?_⟩
        have hji : j < i := hnextgt i hjni
        have hfil : R1.filter (fun p => p.1 ≠ j) = R1 := by
          rw [List.filter_eq_self]
          intro p hp
          have := hR1gt p hp
          simp
          omega
        rw [hfil]
        exact hnnext
      · rw [if_neg hjni]
        by_cases hjpi : jn.prev = some i
        · -- the unsubscribed node was the current node's immediate successor
          rw [if_pos hjpi, hn]
          refine ⟨{ n with next := jn.next }, rfl, ?_⟩
          have hhead : headPtr R1 none = some j := chain_succ_of_prev hrep hjm hjn hjpi
          cases R1 with
          | nil => exact absurd hhead (by simp [headPtr])
          | cons r R2 =>
            obtain ⟨ri, rk⟩ := r
            simp only [headPtr, Option.some.injEq] at hhead
            subst hhead
            obtain ⟨m, hm, hmsub, hmcb, hmprev, hmnext, -⟩ := hsegR1
            rw [hjn] at hm
            obtain rfl := Option.some_injective _ hm.symm
            have hR2gt : ∀ q ∈ R2, ri < q.1 := by
              rw [List.map_cons] at pwR1
              obtain ⟨hr, -⟩ := List.pairwise_cons.mp pwR1
              exact fun q hq => hr q.1 (List.mem_map_of_mem Prod.fst hq)
            have hfil : ((ri, rk) :: R2).filter (fun p => p.1 ≠ ri) = R2 := by
              rw [List.filter_cons, if_neg (by simp)]
              rw [List.filter_eq_self]
              intro p hp
              have := hR2gt p hp
              simp
              omega
            rw [hfil]
            simp only
            exact hmnext
        · -- the unsubscribed node is elsewhere: the link is untouched
          rw [if_neg hjpi, hn]
          refine ⟨n, rfl, ?_⟩
          cases R1 with
          | nil => simpa [headPtr] using hnnext
          | cons r R2 =>
            obtain ⟨ri, rk⟩ := r
            have hrij : ri ≠ j := by
              intro hc
              subst hc
              obtain ⟨m, hm, hmsub, hmcb, hmprev, hmnext, -⟩ := hsegR1
              rw [hjn] at hm
              obtain rfl := Option.some_injective _ hm.symm
              exact hjpi hmprev
            rw [List.filter_cons, if_pos (by simp [hrij])]
            simpa [headPtr] using hnnext
  · rw [unsubscribe_not_mem hrep hjm, hn]
    refine ⟨n, rfl, ?_⟩
    have hfil : R1.filter (fun p => p.1 ≠ j) = R1 := by
      rw [List.filter_eq_self]
      intro p hp
      simp
      intro hc
      refine hjm ?_
      rw [← hc]
      exact List.mem_map_of_mem Prod.fst (by simp [hp])
    rw [hfil]
    exact hnnext

/-- The dispatch loop refines the specification walk: starting anywhere in the
live chain, the invoked callbacks are exactly those of the spec walk, and the
pass ends normally unless the walk hits a throwing callback. -/
theorem notifyAux_refines (env : Nat → RAct) :
    ∀ (fuel : Nat) (R M : List (Nat × Nat)) (c : Collection Nat) (log : List Nat),
      RepOk c M → R <:+ M → R.length + 1 ≤ fuel →
      ∃ c2, notifyAux env fuel c (headPtr R none) log =
        some (if (specNotify env R).2
          then NRes.exn c2 (log ++ (specNotify env R).1)
          else NRes.ok c2 (log ++ (specNotify env R).1)) := by
  intro fuel
  induction fuel with
  | zero =>
    intro R M c log _ _ hf
    omega
  | succ fuel ih =>
    intro R M c log hrep hsuf hf
    cases R with
    | nil =>
      refine ⟨c, ?_⟩
      simp [notifyAux, specNotify, headPtr]
    | cons a R1 =>
      obtain ⟨i, k⟩ := a
      obtain ⟨P, hP⟩ := hsuf
      have hrep' := hP ▸ hrep
      obtain ⟨-, hsegR⟩ := (seg_append c P ((i, k) :: R1) none none).mp hrep'.seg_ok
      obtain ⟨n, hn, hnsub, hncb, hnprev, hnnext, hsegR1⟩ := hsegR
      show ∃ c2, notifyAux env (fuel + 1) c (some i) log = _
      cases henv : env k with
      | throw =>
        refine ⟨c, ?_⟩
        simp only [notifyAux, hn, hncb, henv, specNotify]
        simp
      | pure =>
        have hsuf1 : R1 <:+ M := by
          refine ⟨P ++ [(i, k)], ?_⟩
          rw [List.append_assoc, ← hP]
          rfl
        obtain ⟨c2, hc2⟩ := ih R1 M c (log ++ [k]) hrep hsuf1 (by simp at hf; omega)
        refine ⟨c2, ?_⟩
        simp only [notifyAux, hn, hncb, henv, hnnext, specNotify]
        rw [hc2]
        simp
      | unsub j =>
        obtain ⟨n2, hn2, hn2next⟩ := unsub_reread hrep' j
        have hrepU : RepOk (c.unsubscribe j) (M.filter (fun p => p.1 ≠ j)) :=
          repOk_unsubscribe hrep j
        have hsufU : R1.filter (fun p => p.1 ≠ j) <:+ M.filter (fun p => p.1 ≠ j) := by
          refine List.IsSuffix.filter _ ?_
          refine ⟨P ++ [(i, k)], ?_⟩
          rw [List.append_assoc, ← hP]
          rfl
        have hfU : (R1.filter (fun p => p.1 ≠ j)).length + 1 ≤ fuel := by
          have := List.length_filter_le (fun p => decide (p.1 ≠ j)) R1
          simp at hf
          omega
        obtain ⟨c2, hc2⟩ :=
          ih (R1.filter (fun p => p.1 ≠ j)) (M.filter (fun p => p.1 ≠ j))
            (c.unsubscribe j) (log ++ [k]) hrepU hsufU hfU
        refine ⟨c2, ?_⟩
        simp only [notifyAux, hn, hncb, henv, hn2, hn2next, specNotify]
        rw [hc2]
        simp

theorem notify_refines (env : Nat → RAct) (ops : List RegOp) :
    ∃ c2, (runReg ops).notify env =
      some (if (specNotify env (liveSpec ops)).2
        then NRes.exn c2 (specNotify env (liveSpec ops)).1
        else NRes.ok c2 (specNotify env (liveSpec ops)).1) := by
  have hrep := runReg_repOk ops
  have hlen := repOk_length_le hrep
  obtain ⟨c2, hc2⟩ := notifyAux_refines env ((runReg ops).nodes.length + 1) (liveSpec ops)
    (liveSpec ops) (runReg ops) [] hrep (List.suffix_refl _) (by omega)
  refine ⟨c2, ?_⟩
  unfold Collection.notify
  rw [hrep.first_ok]
  simpa using hc2

theorem specNotify_snd_false (env : Nat → RAct) (h : ∀ k, env k ≠ RAct.throw) :
    ∀ L : List (Nat × Nat), (specNotify env L).2 = false := by
  have main : ∀ nLen, ∀ L : List (Nat × Nat), L.length ≤ nLen →
      (specNotify env L).2 = false := by
    intro nLen
    induction nLen with
    | zero =>
      intro L hL
      rw [List.length_eq_zero.mp (Nat.le_zero.mp hL)]
      simp [specNotify]
    | succ m ihm =>
      intro L hL
      cases L with
      | nil => simp [specNotify]
      | cons a rest =>
        obtain ⟨i, k⟩ := a
        cases henv : env k with
        | throw => exact absurd henv (h k)
        | pure =>
          simp only [specNotify, henv]
          exact ihm rest (by simp at hL; omega)
        | unsub j =>
          simp only [specNotify, henv]
          refine ihm _ ?_
          have := List.length_filter_le (fun p => decide (p.1 ≠ j)) rest
          simp at hL
          omega
  exact fun L => main L.length L (Nat.le_refl _)

theorem specNotify_snd_true (env : Nat → RAct) :
    ∀ L : List (Nat × Nat), (specNotify env L).2 = true →
      ∃ pre kt, (specNotify env L).1 = pre ++ [kt] ∧ env kt = RAct.throw ∧
        ∀ k2 ∈ pre, env k2 ≠ RAct.throw := by
  have main : ∀ nLen, ∀ L : List (Nat × Nat), L.length ≤ nLen →
      (specNotify env L).2 = true →
      ∃ pre kt, (specNotify env L).1 = pre ++ [kt] ∧ env kt = RAct.throw ∧
        ∀ k2 ∈ pre, env k2 ≠ RAct.throw := by
    intro nLen
    induction nLen with
    | zero =>
      intro L hL htrue
      rw [List.length_eq_zero.mp (Nat.le_zero.mp hL)] at htrue
      exact absurd htrue (by simp [specNotify])
    | succ m ihm =>
      intro L hL htrue
      cases L with
      | nil => exact absurd htrue (by simp [specNotify])
      | cons a rest =>
        obtain ⟨i, k⟩ := a
        cases henv : env k with
        | throw =>
          refine ⟨[], k, ?_, henv, by simp⟩
          simp [specNotify, henv]
        | pure =>
          simp only [specNotify, henv] at htrue ⊢
          obtain ⟨pre, kt, h1, h2, h3⟩ := ihm rest (by simp at hL; omega) htrue
          refine ⟨k :: pre, kt, by simp [h1], h2, ?_⟩
          intro k2 hk2
          rcases List.mem_cons.mp hk2 with rfl | hk2'
          · rw [henv]
            simp
          · exact h3 k2 hk2'
        | unsub j =>
          simp only [specNotify, henv] at htrue ⊢
          obtain ⟨pre, kt, h1, h2, h3⟩ := ihm (rest.filter (fun p => p.1 ≠ j))
            (by have := List.length_filter_le (fun p => decide (p.1 ≠ j)) rest
                simp at hL
                omega) htrue
          simp only [ne_eq, decide_not] at h1
          refine ⟨k :: pre, kt, by simp [h1], h2, ?_⟩
          intro k2 hk2
          rcases List.mem_cons.mp hk2 with rfl | hk2'
          · rw [henv]
            simp
          · exact h3 k2 hk2'
  exact fun L => main L.length L (Nat.le_refl _)

/-- Claim C4: if, during a notify pass, the callback of the currently visited
listener invokes unsubscribe on itself or on any other listener of the same
registry (and no callback throws), the pass completes without error and the
invoked callbacks are exactly the specification walk over the live chain:
every listener still linked when the traversal reaches its position is
invoked exactly once, a listener removed after being visited is unaffected,
and a listener removed before being visited is dropped from the remaining
walk — no unrelated listener is skipped or double-invoked. -/
theorem claim_C4 (ops : List RegOp) (env : Nat → RAct) (h : ∀ k, env k ≠ RAct.throw) :
    ∃ c2, (runReg ops).notify env =
      some (NRes.ok c2 (specNotify env (liveSpec ops)).1) := by
  obtain ⟨c2, hc2⟩ := notify_refines env ops
  rw [specNotify_snd_false env h] at hc2
  exact ⟨c2, by simpa using hc2⟩

theorem claim_C4_witness :
    (∀ k, (fun k => if k = 0 then RAct.unsub 2 else RAct.unsub k) k ≠ RAct.throw) ∧
    ∃ c2, (runReg [.sub 0, .sub 1, .sub 2]).notify
        (fun k => if k = 0 then RAct.unsub 2 else RAct.unsub k) =
      some (NRes.ok c2 (specNotify (fun k => if k = 0 then RAct.unsub 2 else RAct.unsub k)
        (liveSpec [.sub 0, .sub 1, .sub 2])).1) := by
  refine ⟨fun k => by dsimp; split <;> simp, ?_⟩
  exact claim_C4 [.sub 0, .sub 1, .sub 2] _ (fun k => by dsimp; split <;> simp)

/-- Claim C8: if a callback invoked during a registry's notify pass throws,
the exception propagates out of the dispatch loop uncaught (the result is the
exceptional one, nothing is caught or suppressed), the invoked-callback log
ends at the throwing listener, and every listener after the throwing one in
the walk is not invoked in that pass. -/
theorem claim_C8 (ops : List RegOp) (env : Nat → RAct)
    (h : (specNotify env (liveSpec ops)).2 = true) :
    (∃ c2, (runReg ops).notify env =
      some (NRes.exn c2 (specNotify env (liveSpec ops)).1)) ∧
    ∃ pre kt, (specNotify env (liveSpec ops)).1 = pre ++ [kt] ∧ env kt = RAct.throw ∧
      ∀ k2 ∈ pre, env k2 ≠ RAct.throw := by
  constructor
  · obtain ⟨c2, hc2⟩ := notify_refines env ops
    rw [h] at hc2
    exact ⟨c2, by simpa using hc2⟩
  · exact specNotify_snd_true env _ h

theorem claim_C8_witness :
    (specNotify (fun k => if k = 1 then RAct.throw else RAct.pure)
      (liveSpec [.sub 0, .sub 1, .sub 2])).2 = true ∧
    ((∃ c2, (runReg [.sub 0, .sub 1, .sub 2]).notify
        (fun k => if k = 1 then RAct.throw else RAct.pure) =
      some (NRes.exn c2 (specNotify (fun k => if k = 1 then RAct.throw else RAct.pure)
        (liveSpec [.sub 0, .sub 1, .sub 2])).1)) ∧
    ∃ pre kt, (specNotify (fun k => if k = 1 then RAct.throw else RAct.pure)
        (liveSpec [.sub 0, .sub 1, .sub 2])).1 = pre ++ [kt] ∧
      (fun k => if k = 1 then RAct.throw else RAct.pure) kt = RAct.throw ∧
      ∀ k2 ∈ pre, (fun k => if k = 1 then RAct.throw else RAct.pure) k2 ≠ RAct.throw) :=
  have hspec : (specNotify (fun k => if k = 1 then RAct.throw else RAct.pure)
      (liveSpec [.sub 0, .sub 1, .sub 2])).2 = true := by
    have h1 : liveSpec [RegOp.sub 0, .sub 1, .sub 2] = [(0, 0), (1, 1), (2, 2)] := by decide
    rw [h1, specNotify]
    simp
    rw [specNotify]
    simp
  ⟨hspec, claim_C8 [.sub 0, .sub 1, .sub 2] _ hspec⟩

theorem get?_setNode_subscribed {α : Type} (ns : List (LNode α)) (t : Nat)
    (g : LNode α → LNode α) (hg : ∀ m, (g m).subscribed = m.subscribed) (i : Nat) :
    ((Collection.setNode ns t g).get? i).map LNode.subscribed =
      (ns.get? i).map LNode.subscribed := by
  rcases eq_or_ne i t with rfl | hne
  · rw [get?_setNode_map]
    cases ns.get? i <;> simp [hg]
  · rw [Collection.get?_setNode_ne _ _ _ hne]

/-- After `unsubscribe` runs to completion, the target node's closure flag is
down (whatever the surrounding links were). -/
theorem unsubscribe_flag_false {α : Type} {c : Collection α} {i : Nat} {node : LNode α}
    (hg : c.nodes.get? i = some node)
    (hguard : ¬(node.subscribed = false ∨ c.first = none)) :
    ((c.unsubscribe i).nodes.get? i).map LNode.subscribed = some false := by
  simp only [Collection.unsubscribe, hg, if_neg hguard]
  have hbase : ((Collection.setNode c.nodes i
      (fun n => { n with subscribed := false })).get? i).map LNode.subscribed = some false := by
    rw [get?_setNode_map, hg]
    rfl
  rcases hnx : node.next with _ | nn <;> rcases hpv : node.prev with _ | pp <;>
    simp only [hnx, hpv] <;>
    repeat rw [get?_setNode_subscribed _ _ _ (by intro m; rfl)]
  · exact hbase
  · exact hbase
  · exact hbase
  · exact hbase

/-- Claim C7 (registry half): invoking an unsubscribe closure a second time is
a silent no-op — the collection (nodes, links, head and tail) is exactly as it
was after the first invocation. -/
theorem unsubscribe_idem {α : Type} (c : Collection α) (i : Nat) :
    (c.unsubscribe i).unsubscribe i = c.unsubscribe i := by
  cases hg : c.nodes.get? i with
  | none =>
    have h0 : c.unsubscribe i = c := by
      simp only [Collection.unsubscribe, hg]
    rw [h0]
    exact h0
  | some node =>
    by_cases hguard : node.subscribed = false ∨ c.first = none
    · have h0 : c.unsubscribe i = c := by
        simp only [Collection.unsubscribe, hg, if_pos hguard]
      rw [h0]
      exact h0
    · obtain ⟨n2, hn2, hn2sub⟩ := Option.map_eq_some'.mp (unsubscribe_flag_false hg hguard)
      set u := c.unsubscribe i with hu
      simp only [Collection.unsubscribe, hn2, if_pos (Or.inl hn2sub)]

/-! ## Single subscription node (`createSubscription`), upstream abstracted

The closure state of one subscription node.  The upstream
(`parentSub.addNestedSub` or `store.subscribe`) is an external collaborator
here, recorded by ghost counters `upSubs`/`upUnsubs` counting how often the
upstream subscribe and the stored upstream unsubscribe were invoked.
Collections are kept in an append-only table so that an old cleanup closure
still refers to the collection it captured after a disconnect/reconnect
cycle. -/

/-- State of one cleanup closure returned by `addNestedSub`: its `removed`
flag plus the captured collection and listener node (the captured
`cleanupListener`). -/
structure Cleanup where
  removed : Bool
  coll : Nat
  lnode : Nat
deriving Repr, DecidableEq

structure Node where
  unsub : Bool
  listeners : Option Nat
  amount : Int
  selfSubscribed : Bool
  colls : List (Collection Nat)
  cleanups : List Cleanup
  upSubs : Nat
  upUnsubs : Nat
deriving Repr, DecidableEq

namespace Node

def init : Node :=
  { unsub := false, listeners := none, amount := 0, selfSubscribed := false,
    colls := [], cleanups := [], upSubs := 0, upUnsubs := 0 }

/-- `trySubscribe`: count the new reason; when no upstream handle exists,
subscribe upstream and replace the null registry with a fresh collection. -/
def trySubscribe (st : Node) : Node :=
  let st := { st with amount := st.amount + 1 }
  if st.unsub then st
  else
    { st with
      unsub := true
      upSubs := st.upSubs + 1
      listeners := some st.colls.length
      colls := st.colls ++ [Collection.empty] }

/-- `tryUnsubscribe`: drop a reason; on reaching zero with a handle held,
invoke the stored upstream unsubscribe, clear the collection and return to the
null registry.  `none` is the (unreachable) undefined call
`nullListeners.clear()`. -/
def tryUnsubscribe (st : Node) : Option Node :=
  let st1 := { st with amount := st.amount - 1 }
  if st1.unsub ∧ st1.amount = 0 then
    let st2 := { st1 with unsub := false, upUnsubs := st1.upUnsubs + 1 }
    match st2.listeners with
    | some cid =>
      match st2.colls.get? cid with
      | some coll =>
        some { st2 with colls := st2.colls.set cid coll.clear, listeners := none }
      | none => none
    | none => none
  else some st1

/-- `isSubscribed()`. -/
def isSubscribed (st : Node) : Bool := st.selfSubscribed

/-- `addNestedSub(listener)`: ensure the upstream connection, register the
callback, hand out a fresh cleanup closure.  `none` is the (unreachable)
undefined call `nullListeners.subscribe()`. -/
def addNestedSub (st : Node) (cb : Nat) : Option Node :=
  let st1 := trySubscribe st
  match st1.listeners with
  | none => none
  | some cid =>
    match st1.colls.get? cid with
    | none => none
    | some coll =>
      let r := coll.subscribe cb
      some { st1 with
        colls := st1.colls.set cid r.2
        cleanups := st1.cleanups ++ [{ removed := false, coll := cid, lnode := r.1 }] }

/-- The cleanup closure returned by `addNestedSub`, invoked by index: guarded
by `removed`, it runs the captured `cleanupListener` and then
`tryUnsubscribe`. -/
def runCleanup (st : Node) (c : Nat) : Option Node :=
  match st.cleanups.get? c with
  | none => some st
  | some cl =>
    if cl.removed then some st
    else
      let st1 := { st with cleanups := st.cleanups.set c { cl with removed := true } }
      match st1.colls.get? cl.coll with
      | none => none
      | some coll =>
        tryUnsubscribe { st1 with colls := st1.colls.set cl.coll (coll.unsubscribe cl.lnode) }

/-- `trySubscribeSelf` (the public `trySubscribe`). -/
def trySubscribeSelf (st : Node) : Node :=
  if st.selfSubscribed then st
  else trySubscribe { st with selfSubscribed := true }

/-- `tryUnsubscribeSelf` (the public `tryUnsubscribe`). -/
def tryUnsubscribeSelf (st : Node) : Option Node :=
  if st.selfSubscribed then tryUnsubscribe { st with selfSubscribed := false }
  else some st

/-- The externally reachable entry points of one node: register a nested
subscription, invoke a cleanup closure, and the public self
subscribe/unsubscribe pair. -/
inductive Cmd where
  | addNested (cb : Nat)
  | cleanup (c : Nat)
  | selfSub
  | selfUnsub
deriving Repr, DecidableEq

def step (st : Node) : Cmd → Option Node
  | .addNested cb => addNestedSub st cb
  | .cleanup c => runCleanup st c
  | .selfSub => some (trySubscribeSelf st)
  | .selfUnsub => tryUnsubscribeSelf st

def runAux : List Cmd → Node → Option Node
  | [], st => some st
  | cmd :: rest, st =>
    match step st cmd with
    | some st' => runAux rest st'
    | none => none

/-- Run a command sequence from the fresh node. -/
def run (cmds : List Cmd) : Option Node := runAux cmds init

/-- Number of cleanup closures handed out and not yet invoked. -/
def activeCleanups (st : Node) : Nat := (st.cleanups.filter (fun cl => !cl.removed)).length

/-- Reachability invariant of one node: the reason counter equals the
outstanding reasons, the upstream handle is held exactly while reasons exist,
the real collection replaces the null one exactly while connected, the
upstream subscribe leads the upstream unsubscribe by exactly the connection
bit, and all captured indices are in range. -/
structure Inv (st : Node) : Prop where
  amount_eq : st.amount = (activeCleanups st : Int) +
    (if st.selfSubscribed then 1 else 0)
  unsub_iff : st.unsub = true ↔ 1 ≤ st.amount
  listeners_iff : st.listeners.isSome = st.unsub
  up_eq : st.upSubs = st.upUnsubs + (if st.unsub then 1 else 0)
  lis_lt : ∀ cid, st.listeners = some cid → cid < st.colls.length
  cl_lt : ∀ cl ∈ st.cleanups, cl.coll < st.colls.length

theorem inv_init : Inv init := by
  constructor <;> simp [init, activeCleanups]

end Node

namespace Node

theorem filter_not_removed_set {l : List Cleanup} {c : Nat} {cl : Cleanup}
    (hg : l.get? c = some cl) (hr : cl.removed = false) :
    ((l.set c { cl with removed := true }).filter (fun x => !x.removed)).length + 1 =
      (l.filter (fun x => !x.removed)).length := by
  induction l generalizing c with
  | nil => exact absurd hg (by simp)
  | cons x l' ih =>
    cases c with
    | zero =>
      obtain rfl : x = cl := by simpa using hg
      simp [List.filter_cons, hr]
    | succ c' =>
      simp only [List.get?] at hg
      have hih := ih hg
      cases hxr : x.removed with
      | true =>
        simp only [List.set, List.filter_cons, hxr]
        simpa using hih
      | false =>
        simp only [List.set, List.filter_cons, hxr]
        simp only [Bool.not_false, if_pos rfl]
        simp at hih ⊢
        omega

theorem activeCleanups_append (l : List Cleanup) (cid lnode : Nat) :
    ((l ++ [({ removed := false, coll := cid, lnode := lnode } : Cleanup)]).filter
        (fun x => !x.removed)).length = (l.filter (fun x => !x.removed)).length + 1 := by
  simp [List.filter_append]

theorem active_pos {l : List Cleanup} {c : Nat} {cl : Cleanup}
    (hg : l.get? c = some cl) (hr : cl.removed = false) :
    1 ≤ (l.filter (fun x => !x.removed)).length := by
  have hm : cl ∈ l.filter (fun x => !x.removed) :=
    List.mem_filter.mpr ⟨l.get?_mem hg, by simp [hr]⟩
  exact List.length_pos.mpr (List.ne_nil_of_mem hm)

end Node

namespace Node

theorem trySubscribe_post {t : Node}
    (h3 : t.listeners.isSome = t.unsub)
    (h4 : t.upSubs = t.upUnsubs + (if t.unsub then 1 else 0))
    (h5 : ∀ cid, t.listeners = some cid → cid < t.colls.length) :
    (trySubscribe t).amount = t.amount + 1 ∧
    (trySubscribe t).unsub = true ∧
    (trySubscribe t).upSubs = (trySubscribe t).upUnsubs + 1 ∧
    (trySubscribe t).cleanups = t.cleanups ∧
    (trySubscribe t).selfSubscribed = t.selfSubscribed ∧
    t.colls.length ≤ (trySubscribe t).colls.length ∧
    (trySubscribe t).upUnsubs = t.upUnsubs ∧
    (trySubscribe t).upSubs = t.upSubs + (if t.unsub then 0 else 1) ∧
    (∃ cid coll, (trySubscribe t).listeners = some cid ∧
      (trySubscribe t).colls.get? cid = some coll ∧
      cid < (trySubscribe t).colls.length) := by
  unfold trySubscribe
  by_cases hu : t.unsub = true
  · rw [if_pos hu]
    have hl : t.listeners.isSome = true := by rw [h3, hu]
    obtain ⟨cid, hcid⟩ := Option.isSome_iff_exists.mp hl
    have hlt := h5 cid hcid
    refine ⟨rfl, hu, ?_, rfl, rfl, Nat.le_refl _, rfl, by simp [hu], cid, ?_⟩
    · show t.upSubs = t.upUnsubs + 1
      rw [h4, if_pos hu]
    · cases hg : t.colls.get? cid with
      | none =>
        rw [List.get?_eq_none] at hg
        omega
      | some coll => exact ⟨coll, hcid, rfl, hlt⟩
  · rw [if_neg hu]
    refine ⟨rfl, rfl, ?_, rfl, rfl, by simp, rfl, by simp [hu], t.colls.length,
      Collection.empty, rfl, List.get?_concat_length _ _, by simp⟩
    show t.upSubs + 1 = t.upUnsubs + 1
    rw [h4, if_neg hu]

end Node

namespace Node

theorem tryUnsubscribe_inv {t : Node}
    (h1 : t.amount = (activeCleanups t : Int) + (if t.selfSubscribed then 1 else 0) + 1)
    (h2 : t.unsub = true ↔ 1 ≤ t.amount)
    (h3 : t.listeners.isSome = t.unsub)
    (h4 : t.upSubs = t.upUnsubs + (if t.unsub then 1 else 0))
    (h5 : ∀ cid, t.listeners = some cid → cid < t.colls.length)
    (h6 : ∀ cl ∈ t.cleanups, cl.coll < t.colls.length) :
    ∃ st', tryUnsubscribe t = some st' ∧ Inv st' ∧ st'.amount = t.amount - 1 ∧
      st'.upSubs = t.upSubs ∧
      st'.upUnsubs = t.upUnsubs + (if t.amount - 1 = 0 then 1 else 0) ∧
      st'.selfSubscribed = t.selfSubscribed ∧ st'.cleanups = t.cleanups := by
  have hpos : 1 ≤ t.amount := by
    have hnn : (0 : Int) ≤ (activeCleanups t : Int) := Int.ofNat_nonneg _
    by_cases hs : t.selfSubscribed <;> simp [hs] at h1 <;> omega
  have hu : t.unsub = true := h2.mpr hpos
  have hl : t.listeners.isSome = true := by rw [h3, hu]
  obtain ⟨cid, hcid⟩ := Option.isSome_iff_exists.mp hl
  have hclt := h5 cid hcid
  have hg : ∃ coll, t.colls.get? cid = some coll := by
    cases hgg : t.colls.get? cid with
    | none =>
      rw [List.get?_eq_none] at hgg
      omega
    | some coll => exact ⟨coll, rfl⟩
  obtain ⟨coll, hg⟩ := hg
  unfold tryUnsubscribe
  by_cases hz : t.amount - 1 = 0
  · rw [if_pos (show _ ∧ _ from ⟨hu, hz⟩)]
    simp only [hcid, hg]
    refine ⟨_, rfl, ?_, rfl, rfl, by rw [if_pos hz], rfl, rfl⟩
    constructor
    · show t.amount - 1 = (activeCleanups t : Int) + (if t.selfSubscribed then 1 else 0)
      omega
    · show (false = true) ↔ 1 ≤ t.amount - 1
      simp
      omega
    · rfl
    · show t.upSubs = t.upUnsubs + 1 + 0
      rw [h4, if_pos hu]
    · intro cid2 hcid2
      exact Option.noConfusion hcid2
    · intro cl hcl
      show cl.coll < (t.colls.set cid coll.clear).length
      rw [List.length_set]
      exact h6 cl hcl
  · rw [if_neg (fun hc => hz hc.2)]
    refine ⟨_, rfl, ?_, rfl, rfl, by rw [if_neg hz]; simp, rfl, rfl⟩
    constructor
    · show t.amount - 1 = (activeCleanups t : Int) + (if t.selfSubscribed then 1 else 0)
      omega
    · show t.unsub = true ↔ 1 ≤ t.amount - 1
      rw [hu]
      simp
      omega
    · exact h3
    · exact h4
    · exact h5
    · exact h6

end Node

namespace Node

theorem inv_amount_nonneg {st : Node} (h : Inv st) : 0 ≤ st.amount := by
  have hnn : (0 : Int) ≤ (activeCleanups st : Int) := Int.ofNat_nonneg _
  rw [h.amount_eq]
  by_cases hs : st.selfSubscribed <;> simp [hs] <;> omega

/-- The claim C2 edge behaviour of one externally reachable call: the
upstream subscribe fires exactly on the 0-to-1 transition of the reason
counter, the stored upstream unsubscribe fires exactly on the 1-to-0
transition, and steps that keep the counter at 1 or more invoke neither. -/
def EdgeFacts (st st' : Node) : Prop :=
  (st'.upSubs = st.upSubs + 1 ↔ st.amount = 0 ∧ st'.amount = 1) ∧
  (st'.upSubs = st.upSubs ∨ st'.upSubs = st.upSubs + 1) ∧
  (st'.upUnsubs = st.upUnsubs + 1 ↔ st.amount = 1 ∧ st'.amount = 0) ∧
  (st'.upUnsubs = st.upUnsubs ∨ st'.upUnsubs = st.upUnsubs + 1) ∧
  (1 ≤ st.amount ∧ 1 ≤ st'.amount → st'.upSubs = st.upSubs ∧ st'.upUnsubs = st.upUnsubs)

theorem edgeFacts_id (st : Node) : EdgeFacts st st := by
  unfold EdgeFacts
  refine ⟨?_, Or.inl rfl, ?_, Or.inl rfl, fun _ => ⟨rfl, rfl⟩⟩ <;>
    constructor <;> intro hc <;> omega

theorem edgeFacts_of_connect {st st' : Node} (h : Inv st)
    (hA : st'.amount = st.amount + 1)
    (hUS : st'.upSubs = st.upSubs + (if st.unsub = true then 0 else 1))
    (hUU : st'.upUnsubs = st.upUnsubs) : EdgeFacts st st' := by
  have hnn := inv_amount_nonneg h
  unfold EdgeFacts
  by_cases hu : st.unsub = true
  · have h1 : 1 ≤ st.amount := h.unsub_iff.mp hu
    rw [hu] at hUS
    simp only [reduceIte] at hUS
    refine ⟨?_, ?_, ?_, ?_, ?_⟩ <;> try omega
  · have h1 : ¬(1 ≤ st.amount) := fun hc => hu (h.unsub_iff.mpr hc)
    rw [if_neg hu] at hUS
    refine ⟨?_, ?_, ?_, ?_, ?_⟩ <;> try omega

theorem edgeFacts_of_release {st st' : Node} (hge : 1 ≤ st.amount)
    (hA : st'.amount = st.amount - 1)
    (hUS : st'.upSubs = st.upSubs)
    (hUU : st'.upUnsubs = st.upUnsubs + (if st.amount - 1 = 0 then 1 else 0)) :
    EdgeFacts st st' := by
  unfold EdgeFacts
  by_cases hz : st.amount - 1 = 0
  · rw [if_pos hz] at hUU
    refine ⟨?_, ?_, ?_, ?_, ?_⟩ <;> try omega
  · rw [if_neg hz] at hUU
    refine ⟨?_, ?_, ?_, ?_, ?_⟩ <;> try omega

theorem inv_addNested {st : Node} (h : Inv st) (cb : Nat) :
    ∃ st', addNestedSub st cb = some st' ∧ Inv st' ∧ EdgeFacts st st' := by
  obtain ⟨hA, hU, hUp, hCl, hSelf, hLen, hUU, hUS, cid, coll, hLis, hGet, hLt⟩ :=
    trySubscribe_post h.listeners_iff h.up_eq h.lis_lt
  unfold addNestedSub
  simp only [hLis, hGet]
  refine ⟨_, rfl, ?_, edgeFacts_of_connect h hA hUS hUU⟩
  have hae := h.amount_eq
  simp only [activeCleanups] at hae
  constructor
  · simp only [activeCleanups, hCl, hSelf, hA, activeCleanups_append]
    push_cast
    push_cast at hae
    omega
  · simp only [hU, hA]
    constructor
    · intro
      have := inv_amount_nonneg h
      omega
    · intro
      trivial
  · simp only [hLis, hU, Option.isSome_some]
  · simp only [hUp, hU, if_pos, reduceIte]
  · intro cid2 hcid2
    simp only [hLis, Option.some.injEq] at hcid2
    subst hcid2
    simp only [List.length_set]
    exact hLt
  · intro cl hcl
    simp only [List.mem_append, List.mem_singleton] at hcl
    simp only [List.length_set]
    rcases hcl with hold | rfl
    · rw [hCl] at hold
      have := h.cl_lt cl hold
      omega
    · exact hLt

theorem inv_selfSub {st : Node} (h : Inv st) :
    Inv (trySubscribeSelf st) ∧ EdgeFacts st (trySubscribeSelf st) := by
  unfold trySubscribeSelf
  by_cases hs : st.selfSubscribed = true
  · rw [if_pos hs]
    exact ⟨h, edgeFacts_id st⟩
  · rw [if_neg hs]
    refine ⟨?_, ?_⟩
    swap
    · obtain ⟨hA, hU, hUp, hCl, hSelf, hLen, hUU, hUS, cid, coll, hLis, hGet, hLt⟩ :=
        trySubscribe_post (t := { st with selfSubscribed := true })
          h.listeners_iff h.up_eq h.lis_lt
      exact edgeFacts_of_connect h hA hUS hUU
    have hs' : st.selfSubscribed = false := by
      cases hsv : st.selfSubscribed
      · rfl
      · exact absurd hsv hs
    obtain ⟨hA, hU, hUp, hCl, hSelf, hLen, hUU, hUS, cid, coll, hLis, hGet, hLt⟩ :=
      trySubscribe_post (t := { st with selfSubscribed := true })
        h.listeners_iff h.up_eq h.lis_lt
    have hAu : (trySubscribe { st with selfSubscribed := true }).amount = st.amount + 1 := hA
    have hUu : (trySubscribe { st with selfSubscribed := true }).unsub = true := hU
    have hUpu : (trySubscribe { st with selfSubscribed := true }).upSubs =
      (trySubscribe { st with selfSubscribed := true }).upUnsubs + 1 := hUp
    have hClu : (trySubscribe { st with selfSubscribed := true }).cleanups = st.cleanups := hCl
    have hSelfu : (trySubscribe { st with selfSubscribed := true }).selfSubscribed = true := hSelf
    have hLenu : st.colls.length ≤
      (trySubscribe { st with selfSubscribed := true }).colls.length := hLen
    have hACu : activeCleanups (trySubscribe { st with selfSubscribed := true }) =
        activeCleanups st := by
      unfold activeCleanups
      rw [hClu]
    have hae := h.amount_eq
    rw [hs'] at hae
    simp at hae
    constructor
    · rw [hAu, hACu, hSelfu]
      simp
      omega
    · simp only [hUu, hAu]
      constructor
      · intro
        have := inv_amount_nonneg h
        omega
      · intro
        trivial
    · simp only [hLis, hUu, Option.isSome_some]
    · simp only [hUpu, hUu, if_pos, reduceIte]
    · intro cid2 hcid2
      rw [hLis] at hcid2
      obtain rfl := Option.some_injective _ hcid2.symm
      exact hLt
    · intro cl hcl
      rw [hClu] at hcl
      have := h.cl_lt cl hcl
      omega

theorem inv_selfUnsub {st : Node} (h : Inv st) :
    ∃ st', tryUnsubscribeSelf st = some st' ∧ Inv st' ∧ EdgeFacts st st' ∧
      st'.selfSubscribed = false ∧
      st'.amount = st.amount - (if st.selfSubscribed = true then 1 else 0) := by
  unfold tryUnsubscribeSelf
  by_cases hs : st.selfSubscribed = true
  · rw [if_pos hs]
    have hge : 1 ≤ st.amount := by
      have hae := h.amount_eq
      rw [hs] at hae
      simp at hae
      omega
    have hh1 : st.amount = (activeCleanups st : Int) + (if false = true then 1 else 0) + 1 := by
      have hae := h.amount_eq
      rw [hs] at hae
      simp at hae ⊢
      omega
    obtain ⟨st', h1, h2, h3, h4, h5, h6, h7⟩ := tryUnsubscribe_inv
      (t := { st with selfSubscribed := false })
      hh1 h.unsub_iff h.listeners_iff h.up_eq h.lis_lt h.cl_lt
    refine ⟨st', h1, h2, edgeFacts_of_release hge h3 h4 h5, h6, ?_⟩
    rw [if_pos hs]
    exact h3
  · rw [if_neg hs]
    refine ⟨st, rfl, h, edgeFacts_id st, ?_, ?_⟩
    · simp at hs
      exact hs
    · rw [if_neg hs]
      simp

theorem inv_cleanup {st : Node} (h : Inv st) (c : Nat) :
    ∃ st', runCleanup st c = some st' ∧ Inv st' ∧ EdgeFacts st st' := by
  cases hg : st.cleanups.get? c with
  | none =>
    refine ⟨st, ?_, h, edgeFacts_id st⟩
    simp only [runCleanup, hg]
  | some cl =>
    cases hr : cl.removed with
    | true =>
      refine ⟨st, ?_, h, edgeFacts_id st⟩
      simp only [runCleanup, hg, hr, reduceIte]
    | false =>
      have hcollLt : cl.coll < st.colls.length := h.cl_lt cl (st.cleanups.get?_mem hg)
      have hcoll : ∃ coll, st.colls.get? cl.coll = some coll := by
        cases hgg : st.colls.get? cl.coll with
        | none =>
          rw [List.get?_eq_none] at hgg
          omega
        | some coll => exact ⟨coll, rfl⟩
      obtain ⟨coll, hcoll⟩ := hcoll
      have hred : runCleanup st c = tryUnsubscribe { st with
          cleanups := st.cleanups.set c { cl with removed := true }
          colls := st.colls.set cl.coll (coll.unsubscribe cl.lnode) } := by
        simp only [runCleanup, hg, hr, reduceIte, hcoll]
        simp
      rw [hred]
      have hge : 1 ≤ st.amount := by
        have hone := active_pos hg hr
        have hae := h.amount_eq
        simp only [activeCleanups] at hae
        have hite : (0 : Int) ≤ if st.selfSubscribed = true then 1 else 0 := by
          split <;> norm_num
        omega
      have hh1 : st.amount = (((st.cleanups.set c { cl with removed := true }).filter
          (fun x => !x.removed)).length : Int)
          + (if st.selfSubscribed = true then 1 else 0) + 1 := by
        have hcount := filter_not_removed_set hg hr
        have hone := active_pos hg hr
        have hae := h.amount_eq
        simp only [activeCleanups] at hae
        omega
      have hh5 : ∀ cid, st.listeners = some cid →
          cid < (st.colls.set cl.coll (coll.unsubscribe cl.lnode)).length := by
        intro cid2 hcid2
        rw [List.length_set]
        exact h.lis_lt cid2 hcid2
      have hh6 : ∀ cl2 ∈ st.cleanups.set c { cl with removed := true },
          cl2.coll < (st.colls.set cl.coll (coll.unsubscribe cl.lnode)).length := by
        intro cl2 hcl2
        rw [List.length_set]
        rcases List.mem_or_eq_of_mem_set hcl2 with hold | rfl
        · exact h.cl_lt cl2 hold
        · exact hcollLt
      obtain ⟨st', h1, h2, h3, h4, h5, -, -⟩ := tryUnsubscribe_inv
        (t := { st with
          cleanups := st.cleanups.set c { cl with removed := true }
          colls := st.colls.set cl.coll (coll.unsubscribe cl.lnode) })
        hh1 h.unsub_iff h.listeners_iff h.up_eq hh5 hh6
      exact ⟨st', h1, h2, edgeFacts_of_release hge h3 h4 h5⟩

theorem inv_step {st : Node} (h : Inv st) (cmd : Cmd) :
    ∃ st', step st cmd = some st' ∧ Inv st' ∧ EdgeFacts st st' := by
  cases cmd with
  | addNested cb => exact inv_addNested h cb
  | cleanup c => exact inv_cleanup h c
  | selfSub => exact ⟨_, rfl, (inv_selfSub h).1, (inv_selfSub h).2⟩
  | selfUnsub =>
    obtain ⟨st', h1, h2, h3, -, -⟩ := inv_selfUnsub h
    exact ⟨st', h1, h2, h3⟩

theorem runAux_inv : ∀ (cmds : List Cmd) (st : Node), Inv st →
    ∃ st', runAux cmds st = some st' ∧ Inv st' := by
  intro cmds
  induction cmds with
  | nil => exact fun st h => ⟨st, rfl, h⟩
  | cons cmd rest ih =>
    intro st h
    obtain ⟨st1, hst1, hinv1, -⟩ := inv_step h cmd
    obtain ⟨st', hst', hinv'⟩ := ih st1 hinv1
    refine ⟨st', ?_, hinv'⟩
    unfold runAux
    rw [hst1]
    exact hst'

theorem run_inv (cmds : List Cmd) : ∃ st', run cmds = some st' ∧ Inv st' :=
  runAux_inv cmds init inv_init

theorem trySubscribe_selfSubscribed (t : Node) :
    (trySubscribe t).selfSubscribed = t.selfSubscribed := by
  simp only [trySubscribe]
  split
  · rfl
  · rfl

theorem tryUnsubscribe_cleanups {t st' : Node} (h : tryUnsubscribe t = some st') :
    st'.cleanups = t.cleanups := by
  simp only [tryUnsubscribe] at h
  split at h
  · split at h
    · split at h
      · injection h with he
        subst he
        rfl
      · exact absurd h (by simp)
    · exact absurd h (by simp)
  · injection h with he
    subst he
    rfl

theorem runCleanup_idem {st st' : Node} {c : Nat}
    (h : runCleanup st c = some st') : runCleanup st' c = some st' := by
  cases hg : st.cleanups.get? c with
  | none =>
    simp only [runCleanup, hg] at h
    injection h with he
    subst he
    simp only [runCleanup, hg]
  | some cl =>
    cases hr : cl.removed with
    | true =>
      simp only [runCleanup, hg, hr, reduceIte] at h
      injection h with he
      subst he
      simp only [runCleanup, hg, hr, reduceIte]
    | false =>
      simp only [runCleanup, hg, hr, reduceIte] at h
      cases hcoll : st.colls.get? cl.coll with
      | none =>
        rw [List.get?_eq_getElem?] at hcoll
        simp [hcoll] at h
      | some coll =>
        simp only [hcoll] at h
        have hcl' : st'.cleanups = st.cleanups.set c { cl with removed := true } :=
          tryUnsubscribe_cleanups h
        have hget : st'.cleanups.get? c = some { cl with removed := true } := by
          rw [hcl']
          exact List.get?_set_eq_of_lt _ (get?_some_lt hg)
        simp only [runCleanup, hget, reduceIte]

end Node

/-- C2: over every sequence of externally reachable calls on a Subscription
Node (addNestedSub, the cleanups it returns, and the public self
trySubscribe/tryUnsubscribe pair), the reached state satisfies: the reason
counter is nonnegative, the upstream handle exists iff the counter is at
least 1, a real listener collection is installed exactly when the upstream
handle exists (otherwise the null registry is in place), and the number of
upstream subscribes exceeds the number of upstream unsubscribes by exactly
the connection bit; moreover each single call fires the upstream subscribe
exactly on the 0-to-1 edge of the counter, fires the stored upstream
unsubscribe exactly on the 1-to-0 edge, fires each at most once, and fires
neither when the counter stays at 1 or more — so reconnecting after a full
detach re-invokes the upstream subscribe exactly once more. -/
theorem claim_C2 :
    (∀ cmds st, Node.run cmds = some st →
      0 ≤ st.amount ∧ (st.unsub = true ↔ 1 ≤ st.amount) ∧
      st.listeners.isSome = st.unsub ∧
      st.upSubs = st.upUnsubs + (if st.unsub = true then 1 else 0)) ∧
    (∀ cmds st cmd st', Node.run cmds = some st → Node.step st cmd = some st' →
      Node.EdgeFacts st st') := by
  constructor
  · intro cmds st hrun
    obtain ⟨st0, hrun0, hinv⟩ := Node.run_inv cmds
    rw [hrun0] at hrun
    injection hrun with he
    subst he
    exact ⟨Node.inv_amount_nonneg hinv, hinv.unsub_iff, hinv.listeners_iff, hinv.up_eq⟩
  · intro cmds st cmd st' hrun hstep
    obtain ⟨st0, hrun0, hinv⟩ := Node.run_inv cmds
    rw [hrun0] at hrun
    injection hrun with he
    subst he
    obtain ⟨st1, hst1, hinv1, hedge⟩ := Node.inv_step hinv cmd
    rw [hst1] at hstep
    injection hstep with he2
    subst he2
    exact hedge

theorem claim_C2_witness :
    (0 ≤ ((Node.run [Node.Cmd.selfSub]).getD Node.init).amount ∧
     (((Node.run [Node.Cmd.selfSub]).getD Node.init).unsub = true ↔
       1 ≤ ((Node.run [Node.Cmd.selfSub]).getD Node.init).amount) ∧
     ((Node.run [Node.Cmd.selfSub]).getD Node.init).listeners.isSome =
       ((Node.run [Node.Cmd.selfSub]).getD Node.init).unsub ∧
     ((Node.run [Node.Cmd.selfSub]).getD Node.init).upSubs =
       ((Node.run [Node.Cmd.selfSub]).getD Node.init).upUnsubs +
         (if ((Node.run [Node.Cmd.selfSub]).getD Node.init).unsub = true
          then 1 else 0)) ∧
    Node.EdgeFacts Node.init
      ((Node.step Node.init (Node.Cmd.addNested 0)).getD Node.init) :=
  ⟨claim_C2.1 [Node.Cmd.selfSub] _ (by decide),
   claim_C2.2 [] Node.init (Node.Cmd.addNested 0) _ (by decide) (by decide)⟩

/-- C6: the public self `trySubscribe` is idempotent — a second call on an
already self-subscribed node is a no-op, `isSubscribed()` is true after it,
and starting from a not-self-subscribed node the call adds exactly one to
`subscriptionsAmount`; a single public `tryUnsubscribe` then fully releases
that reason (`isSubscribed()` becomes false and the counter returns to its
prior value), and a public `tryUnsubscribe` while not self-subscribed
changes nothing. -/
theorem claim_C6 (st : Node) (h : Node.Inv st) :
    Node.trySubscribeSelf (Node.trySubscribeSelf st) = Node.trySubscribeSelf st ∧
    Node.isSubscribed (Node.trySubscribeSelf st) = true ∧
    (Node.isSubscribed st = false →
      (Node.trySubscribeSelf st).amount = st.amount + 1 ∧
      ∃ st', Node.tryUnsubscribeSelf (Node.trySubscribeSelf st) = some st' ∧
        Node.isSubscribed st' = false ∧ st'.amount = st.amount) ∧
    (Node.isSubscribed st = false → Node.tryUnsubscribeSelf st = some st) := by
  by_cases hs : st.selfSubscribed = true
  · have h1 : Node.trySubscribeSelf st = st := by
      unfold Node.trySubscribeSelf
      rw [if_pos hs]
    refine ⟨by rw [h1]; exact h1, by rw [h1]; exact hs, ?_, ?_⟩
    · intro hns
      exact absurd hns (by simp [Node.isSubscribed, hs])
    · intro hns
      exact absurd hns (by simp [Node.isSubscribed, hs])
  · have h1 : Node.trySubscribeSelf st =
        Node.trySubscribe { st with selfSubscribed := true } := by
      unfold Node.trySubscribeSelf
      rw [if_neg hs]
    have hflag : (Node.trySubscribeSelf st).selfSubscribed = true := by
      rw [h1, Node.trySubscribe_selfSubscribed]
    obtain ⟨hA, hU, hUp, hCl, hSelf, hLen, hUU, hUS, cid, coll, hLis, hGet, hLt⟩ :=
      Node.trySubscribe_post (t := { st with selfSubscribed := true })
        h.listeners_iff h.up_eq h.lis_lt
    have hAmt : (Node.trySubscribeSelf st).amount = st.amount + 1 := by
      rw [h1]
      exact hA
    refine ⟨?_, hflag, ?_, ?_⟩
    · have hIf : Node.trySubscribeSelf (Node.trySubscribeSelf st) =
          if (Node.trySubscribeSelf st).selfSubscribed then Node.trySubscribeSelf st
          else Node.trySubscribe
            { Node.trySubscribeSelf st with selfSubscribed := true } := rfl
      rw [hIf, if_pos hflag]
    · intro _
      refine ⟨hAmt, ?_⟩
      obtain ⟨st', hu, hinv', hedge, hself', hamt'⟩ :=
        Node.inv_selfUnsub ((Node.inv_selfSub h).1)
      refine ⟨st', hu, hself', ?_⟩
      rw [if_pos hflag] at hamt'
      rw [hamt', hAmt]
      omega
    · intro _
      unfold Node.tryUnsubscribeSelf
      rw [if_neg hs]

theorem claim_C6_witness :
    Node.trySubscribeSelf (Node.trySubscribeSelf Node.init) =
      Node.trySubscribeSelf Node.init ∧
    Node.isSubscribed (Node.trySubscribeSelf Node.init) = true ∧
    (Node.isSubscribed Node.init = false →
      (Node.trySubscribeSelf Node.init).amount = Node.init.amount + 1 ∧
      ∃ st', Node.tryUnsubscribeSelf (Node.trySubscribeSelf Node.init) = some st' ∧
        Node.isSubscribed st' = false ∧ st'.amount = Node.init.amount) ∧
    (Node.isSubscribed Node.init = false →
      Node.tryUnsubscribeSelf Node.init = some Node.init) :=
  claim_C6 Node.init Node.inv_init

/-- C7: second and later invocations of an unsubscribe or cleanup closure are
silent no-ops — applying a registry node's `unsubscribe` again leaves the
collection (links, head and tail) exactly as after the first call, and
re-running a cleanup returned by `addNestedSub` returns the state after the
first run unchanged, `subscriptionsAmount` included. -/
theorem claim_C7 :
    (∀ (α : Type) (c : Collection α) (i : Nat),
      (c.unsubscribe i).unsubscribe i = c.unsubscribe i) ∧
    (∀ (st : Node) (c : Nat) (st' : Node),
      Node.runCleanup st c = some st' → Node.runCleanup st' c = some st') :=
  ⟨fun _ c i => unsubscribe_idem c i, fun _ _ _ h => Node.runCleanup_idem h⟩

theorem claim_C7_witness :
    ((((Collection.empty : Collection Nat).subscribe 5).2.unsubscribe 0).unsubscribe 0 =
      ((Collection.empty : Collection Nat).subscribe 5).2.unsubscribe 0) ∧
    Node.runCleanup
        ((Node.runCleanup ((Node.run [Node.Cmd.addNested 0]).getD Node.init) 0).getD
          Node.init) 0 =
      some ((Node.runCleanup ((Node.run [Node.Cmd.addNested 0]).getD Node.init) 0).getD
          Node.init) :=
  ⟨claim_C7.1 Nat ((Collection.empty : Collection Nat).subscribe 5).2 0,
   claim_C7.2 ((Node.run [Node.Cmd.addNested 0]).getD Node.init) 0 _ (by decide)⟩

/-- C10: every sequence of externally reachable calls on a Subscription Node
runs to completion without ever taking a `none` branch — the `none` results
that model calling the absent `subscribe`/`clear` of the null registry are
unreachable — and in the reached state a real listener collection is
installed exactly when the upstream handle exists. -/
theorem claim_C10 (cmds : List Node.Cmd) :
    ∃ st, Node.run cmds = some st ∧ st.listeners.isSome = st.unsub := by
  obtain ⟨st, h1, h2⟩ := Node.run_inv cmds
  exact ⟨st, h1, h2.listeners_iff⟩

/-! ## The full system: a tree of subscriptions over a store

`Sys` holds every `createSubscription` closure (one `SubNode` per call), the
store's own listener collection and state, and two ghost logs: `log` records
callback invocations (`Ev.handler n` when node `n`'s `handleChangeWrapper`
is entered, `Ev.ext k` when an external component callback runs), `nnLog`
records each `notifyNestedSubs` entry.  As in the single-node model, every
collection a node ever allocates is kept in `colls` so that closures created
by `addNestedSub` keep operating on the collection object they captured. -/

inductive Cb2 where
  | ext (k : Nat)
  | child (n : Nat)
deriving Repr, DecidableEq

inductive Ev where
  | handler (n : Nat)
  | ext (k : Nat)
deriving Repr, DecidableEq

/-- The stored upstream unsubscribe closure: either the store's registry
unsubscribe (capturing the listener node id) or a cleanup closure of the
parent subscription (capturing its index there). -/
inductive UpHandle where
  | store (lnode : Nat)
  | parent (pid : Nat) (c : Nat)
deriving Repr, DecidableEq

structure CleanupRec where
  removed : Bool
  collIdx : Nat
  lnode : Nat
deriving Repr, DecidableEq

structure SubNode where
  parent : Option Nat
  unsub : Option UpHandle
  listeners : Option Nat
  colls : List (Collection Cb2)
  amount : Int
  selfSub : Bool
  cleanups : List CleanupRec
  osc : Bool
deriving Repr, DecidableEq

/-- A freshly created subscription: `unsubscribe` undefined, `listeners`
the null registry, zero reasons, not self-subscribed, no `onStateChange`. -/
def SubNode.fresh (parent : Option Nat) : SubNode :=
  { parent := parent
    unsub := none
    listeners := none
    colls := []
    amount := 0
    selfSub := false
    cleanups := []
    osc := false }

structure Sys where
  nodes : List SubNode
  storeColl : Collection Cb2
  storeState : Nat
  log : List Ev
  nnLog : List Nat
deriving Repr, DecidableEq

def Sys.setNode (s : Sys) (n : Nat) (v : SubNode) : Sys :=
  { s with nodes := s.nodes.set n v }

/-- `subscription.onStateChange = subscription.notifyNestedSubs` (the only
assignment the repository performs). -/
def Sys.setOSC (s : Sys) (n : Nat) (b : Bool) : Option Sys :=
  match s.nodes.get? n with
  | none => none
  | some nd => some (s.setNode n { nd with osc := b })

/-- A reference to one concrete listener-collection object: the store's, or
the `cidx`-th collection allocated by node `n`. -/
inductive CollRef where
  | store
  | node (n : Nat) (cidx : Nat)
deriving Repr, DecidableEq

def Sys.collOf (s : Sys) : CollRef → Option (Collection Cb2)
  | .store => some s.storeColl
  | .node n cidx => (s.nodes.get? n).bind fun nd => nd.colls.get? cidx

def Sys.setColl (s : Sys) (r : CollRef) (c : Collection Cb2) : Option Sys :=
  match r with
  | .store => some { s with storeColl := c }
  | .node n cidx =>
    match s.nodes.get? n with
    | none => none
    | some nd => some (s.setNode n { nd with colls := nd.colls.set cidx c })

/-- The mutually re-entrant calls of the system: the two wrapper callbacks,
the internal connect/disconnect pair, `addNestedSub` (returning the index of
the cleanup closure it hands out), a cleanup invocation, the public
self-subscribe pair, invoking a registered callback, and the registry
dispatch loop (`cur` is the `listener` variable, re-read after each
callback). -/
inductive ICall where
  | handleChange (n : Nat)
  | notifyNested (n : Nat)
  | notifyLoop (r : CollRef) (cur : Option Nat)
  | runCb (cb : Cb2)
  | trySub (n : Nat)
  | tryUnsub (n : Nat)
  | addNested (n : Nat) (cb : Cb2)
  | cleanup (n : Nat) (c : Nat)
  | selfSub (n : Nat)
  | selfUnsub (n : Nat)
deriving Repr, DecidableEq

/-- Fuelled interpreter for one call on the system.  `none` either means the
fuel ran out, a dangling identifier was dereferenced, or an undefined method
of the null registry was called. -/
def exec : Nat → ICall → Sys → Option (Sys × Nat)
  | 0, _, _ => none
  | Nat.succ fuel, c, s =>
    match c with
    | .runCb (.ext k) => some ({ s with log := s.log ++ [Ev.ext k] }, 0)
    | .runCb (.child n) => exec fuel (.handleChange n) s
    | .handleChange n =>
      match s.nodes.get? n with
      | none => none
      | some nd =>
        let s1 := { s with log := s.log ++ [Ev.handler n] }
        if nd.osc then exec fuel (.notifyNested n) s1 else some (s1, 0)
    | .notifyNested n =>
      match s.nodes.get? n with
      | none => none
      | some nd =>
        let s1 := { s with nnLog := s.nnLog ++ [n] }
        match nd.listeners with
        | none => some (s1, 0)
        | some cidx =>
          match nd.colls.get? cidx with
          | none => none
          | some c => exec fuel (.notifyLoop (.node n cidx) c.first) s1
    | .notifyLoop r cur =>
      match cur with
      | none => some (s, 0)
      | some i =>
        match s.collOf r with
        | none => none
        | some c =>
          match c.nodes.get? i with
          | none => none
          | some ln =>
            match exec fuel (.runCb ln.cb) s with
            | none => none
            | some (s2, _) =>
              match s2.collOf r with
              | none => none
              | some c2 =>
                match c2.nodes.get? i with
                | none => none
                | some ln2 => exec fuel (.notifyLoop r ln2.next) s2
    | .trySub n =>
      match s.nodes.get? n with
      | none => none
      | some nd =>
        let nd1 := { nd with amount := nd.amount + 1 }
        let s1 := s.setNode n nd1
        match nd1.unsub with
        | some _ => some (s1, 0)
        | none =>
          match nd1.parent with
          | none =>
            let r := s1.storeColl.subscribe (Cb2.child n)
            let s2 := { s1 with storeColl := r.2 }
            match s2.nodes.get? n with
            | none => none
            | some nd2 =>
              some (s2.setNode n { nd2 with
                unsub := some (UpHandle.store r.1)
                listeners := some nd2.colls.length
                colls := nd2.colls ++ [Collection.empty] }, 0)
          | some p =>
            match exec fuel (.addNested p (Cb2.child n)) s1 with
            | none => none
            | some (s2, cidx) =>
              match s2.nodes.get? n with
              | none => none
              | some nd2 =>
                some (s2.setNode n { nd2 with
                  unsub := some (UpHandle.parent p cidx)
                  listeners := some nd2.colls.length
                  colls := nd2.colls ++ [Collection.empty] }, 0)
    | .tryUnsub n =>
      match s.nodes.get? n with
      | none => none
      | some nd =>
        let nd1 := { nd with amount := nd.amount - 1 }
        let s1 := s.setNode n nd1
        match nd1.unsub with
        | none => some (s1, 0)
        | some u =>
          if nd1.amount = 0 then
            let doUp : Option Sys :=
              match u with
              | .store ln => some { s1 with storeColl := s1.storeColl.unsubscribe ln }
              | .parent p cidx => (exec fuel (.cleanup p cidx) s1).map (·.1)
            match doUp with
            | none => none
            | some s2 =>
              match s2.nodes.get? n with
              | none => none
              | some nd2 =>
                match nd2.listeners with
                | none => none
                | some cidx =>
                  match nd2.colls.get? cidx with
                  | none => none
                  | some c =>
                    some (s2.setNode n { nd2 with
                      unsub := none
                      listeners := none
                      colls := nd2.colls.set cidx c.clear }, 0)
          else some (s1, 0)
    | .addNested n cb =>
      match exec fuel (.trySub n) s with
      | none => none
      | some (s1, _) =>
        match s1.nodes.get? n with
        | none => none
        | some nd1 =>
          match nd1.listeners with
          | none => none
          | some cidx =>
            match nd1.colls.get? cidx with
            | none => none
            | some c =>
              let r := c.subscribe cb
              some (s1.setNode n { nd1 with
                colls := nd1.colls.set cidx r.2
                cleanups := nd1.cleanups ++
                  [{ removed := false, collIdx := cidx, lnode := r.1 }] },
                nd1.cleanups.length)
    | .cleanup n cidx =>
      match s.nodes.get? n with
      | none => none
      | some nd =>
        match nd.cleanups.get? cidx with
        | none => none
        | some cr =>
          if cr.removed then some (s, 0)
          else
            let nd1 := { nd with cleanups := nd.cleanups.set cidx { cr with removed := true } }
            match nd1.colls.get? cr.collIdx with
            | none => none
            | some c =>
              let s1 := s.setNode n { nd1 with
                colls := nd1.colls.set cr.collIdx (c.unsubscribe cr.lnode) }
              exec fuel (.tryUnsub n) s1
    | .selfSub n =>
      match s.nodes.get? n with
      | none => none
      | some nd =>
        if nd.selfSub then some (s, 0)
        else exec fuel (.trySub n) (s.setNode n { nd with selfSub := true })
    | .selfUnsub n =>
      match s.nodes.get? n with
      | none => none
      | some nd =>
        if nd.selfSub then exec fuel (.tryUnsub n) (s.setNode n { nd with selfSub := false })
        else some (s, 0)

/-- A state change of the store (spec-modelled: the redux store itself is
not part of this repository): the state is replaced and every registered
store listener is dispatched, exactly as the registry `notify` does. -/
def storeDispatch (fuel : Nat) (v : Nat) (s : Sys) : Option Sys :=
  let s1 := { s with storeState := v }
  (exec fuel (.notifyLoop .store s1.storeColl.first) s1).map (·.1)

/-- The body of Provider's layout effect: set `onStateChange` to
`notifyNestedSubs`, call the public `trySubscribe`, then compare the
previously captured state snapshot with a fresh `store.getState()` and, if
they differ, call `notifyNestedSubs()` once. -/
def providerAttach (fuel : Nat) (prev : Nat) (n : Nat) (s : Sys) : Option Sys :=
  match s.setOSC n true with
  | none => none
  | some s1 =>
    match exec fuel (.selfSub n) s1 with
    | none => none
    | some (s2, _) =>
      if prev ≠ s2.storeState then (exec fuel (.notifyNested n) s2).map (·.1)
      else some s2

/-- Whatever call runs, the invocation log only ever grows: the ghost `log`
of the result extends the starting one. -/
theorem exec_log_mono : ∀ (fuel : Nat) (c : ICall) (s : Sys) (res : Sys × Nat),
    exec fuel c s = some res → ∃ Δ, res.1.log = s.log ++ Δ := by
  intro fuel
  induction fuel with
  | zero =>
    intro c s res h
    simp [exec] at h
  | succ fuel ih =>
    intro c s res h
    cases c with
    | runCb cb =>
      cases cb with
      | ext k =>
        simp only [exec] at h
        injection h with he
        subst he
        exact ⟨[Ev.ext k], rfl⟩
      | child n =>
        simp only [exec] at h
        exact ih _ _ _ h
    | handleChange n =>
      simp only [exec] at h
      cases hnd : s.nodes.get? n with
      | none =>
        simp only [hnd] at h
        exact Option.noConfusion h
      | some nd =>
        simp only [hnd] at h
        by_cases ho : nd.osc = true
        · rw [if_pos ho] at h
          obtain ⟨Δ, hΔ⟩ := ih _ _ _ h
          exact ⟨Ev.handler n :: Δ, by rw [hΔ]; simp⟩
        · rw [if_neg ho] at h
          injection h with he
          subst he
          exact ⟨[Ev.handler n], rfl⟩
    | notifyNested n =>
      simp only [exec] at h
      cases hnd : s.nodes.get? n with
      | none =>
        simp only [hnd] at h
        exact Option.noConfusion h
      | some nd =>
        simp only [hnd] at h
        cases hl : nd.listeners with
        | none =>
          simp only [hl] at h
          injection h with he
          subst he
          exact ⟨[], by simp⟩
        | some cidx =>
          simp only [hl] at h
          cases hc : nd.colls.get? cidx with
          | none =>
            simp only [hc] at h
            exact Option.noConfusion h
          | some c =>
            simp only [hc] at h
            obtain ⟨Δ, hΔ⟩ := ih _ _ _ h
            exact ⟨Δ, hΔ⟩
    | notifyLoop r cur =>
      simp only [exec] at h
      cases cur with
      | none =>
        injection h with he
        subst he
        exact ⟨[], by simp⟩
      | some i =>
        cases hco : s.collOf r with
        | none =>
          simp only [hco] at h
          exact Option.noConfusion h
        | some c =>
          simp only [hco] at h
          cases hln : c.nodes.get? i with
          | none =>
            simp only [hln] at h
            exact Option.noConfusion h
          | some ln =>
            simp only [hln] at h
            cases hrc : exec fuel (.runCb ln.cb) s with
            | none =>
              simp only [hrc] at h
              exact Option.noConfusion h
            | some p =>
              simp only [hrc] at h
              obtain ⟨Δ1, h1⟩ := ih _ _ _ hrc
              cases hco2 : p.1.collOf r with
              | none =>
                simp only [hco2] at h
                exact Option.noConfusion h
              | some c2 =>
                simp only [hco2] at h
                cases hln2 : c2.nodes.get? i with
                | none =>
                  simp only [hln2] at h
                  exact Option.noConfusion h
                | some ln2 =>
                  simp only [hln2] at h
                  obtain ⟨Δ2, h2⟩ := ih _ _ _ h
                  exact ⟨Δ1 ++ Δ2, by rw [h2, h1, List.append_assoc]⟩
    | trySub n =>
      simp only [exec, Sys.setNode] at h
      cases hnd : s.nodes.get? n with
      | none =>
        simp only [hnd] at h
        exact Option.noConfusion h
      | some nd =>
        simp only [hnd] at h
        cases hu : nd.unsub with
        | some u =>
          simp only [hu] at h
          injection h with he
          subst he
          exact ⟨[], by simp⟩
        | none =>
          simp only [hu] at h
          cases hp : nd.parent with
          | none =>
            simp only [hp] at h
            have hlen : n < s.nodes.length := get?_some_lt hnd
            simp only [List.get?_set_eq_of_lt _ hlen] at h
            injection h with he
            subst he
            exact ⟨[], by simp⟩
          | some p =>
            simp only [hp] at h
            split at h
            · exact Option.noConfusion h
            · rename_i s2 cidx heq
              obtain ⟨Δ1, h1⟩ := ih _ _ _ heq
              split at h
              · exact Option.noConfusion h
              · injection h with he
                subst he
                exact ⟨Δ1, by simpa using h1⟩
    | tryUnsub n =>
      simp only [exec, Sys.setNode] at h
      cases hnd : s.nodes.get? n with
      | none =>
        simp only [hnd] at h
        exact Option.noConfusion h
      | some nd =>
        simp only [hnd] at h
        cases hu : nd.unsub with
        | none =>
          simp only [hu] at h
          injection h with he
          subst he
          exact ⟨[], by simp⟩
        | some u =>
          cases u with
          | store ln =>
            simp only [hu] at h
            by_cases hz : nd.amount - 1 = 0
            · rw [if_pos hz] at h
              have hlen : n < s.nodes.length := get?_some_lt hnd
              simp only [List.get?_set_eq_of_lt _ hlen] at h
              cases hl : nd.listeners with
              | none =>
                simp only [hl] at h
                exact Option.noConfusion h
              | some cidx =>
                simp only [hl] at h
                cases hcg : nd.colls.get? cidx with
                | none =>
                  simp only [hcg] at h
                  exact Option.noConfusion h
                | some c =>
                  simp only [hcg] at h
                  injection h with he
                  subst he
                  exact ⟨[], by simp⟩
            · rw [if_neg hz] at h
              injection h with he
              subst he
              exact ⟨[], by simp⟩
          | parent pp cc =>
            simp only [hu] at h
            by_cases hz : nd.amount - 1 = 0
            · rw [if_pos hz] at h
              split at h
              · exact Option.noConfusion h
              · rename_i s2 heq
                obtain ⟨pr, hpr, hfb⟩ := Option.map_eq_some'.mp heq
                obtain ⟨Δ1, h1⟩ := ih _ _ _ hpr
                split at h
                · exact Option.noConfusion h
                · rename_i nd2 heq2
                  split at h
                  · exact Option.noConfusion h
                  · rename_i cidx heq3
                    split at h
                    · exact Option.noConfusion h
                    · rename_i c2 heq4
                      injection h with he
                      subst he
                      refine ⟨Δ1, ?_⟩
                      show s2.log = s.log ++ Δ1
                      rw [← hfb]
                      exact h1
            · rw [if_neg hz] at h
              injection h with he
              subst he
              exact ⟨[], by simp⟩
    | addNested n cb =>
      simp only [exec, Sys.setNode] at h
      split at h
      · exact Option.noConfusion h
      · rename_i s1 v heq
        obtain ⟨Δ1, h1⟩ := ih _ _ _ heq
        split at h
        · exact Option.noConfusion h
        · split at h
          · exact Option.noConfusion h
          · split at h
            · exact Option.noConfusion h
            · injection h with he
              subst he
              exact ⟨Δ1, by simpa using h1⟩
    | cleanup n cidx =>
      simp only [exec, Sys.setNode] at h
      cases hnd : s.nodes.get? n with
      | none =>
        simp only [hnd] at h
        exact Option.noConfusion h
      | some nd =>
        simp only [hnd] at h
        cases hcr : nd.cleanups.get? cidx with
        | none =>
          simp only [hcr] at h
          exact Option.noConfusion h
        | some cr =>
          simp only [hcr] at h
          by_cases hrm : cr.removed = true
          · rw [if_pos hrm] at h
            injection h with he
            subst he
            exact ⟨[], by simp⟩
          · rw [if_neg hrm] at h
            cases hcg : nd.colls.get? cr.collIdx with
            | none =>
              simp only [hcg] at h
              exact Option.noConfusion h
            | some c =>
              simp only [hcg] at h
              obtain ⟨Δ1, h1⟩ := ih _ _ _ h
              exact ⟨Δ1, h1⟩
    | selfSub n =>
      simp only [exec, Sys.setNode] at h
      cases hnd : s.nodes.get? n with
      | none =>
        simp only [hnd] at h
        exact Option.noConfusion h
      | some nd =>
        simp only [hnd] at h
        by_cases hss : nd.selfSub = true
        · rw [if_pos hss] at h
          injection h with he
          subst he
          exact ⟨[], by simp⟩
        · rw [if_neg hss] at h
          obtain ⟨Δ1, h1⟩ := ih _ _ _ h
          exact ⟨Δ1, h1⟩
    | selfUnsub n =>
      simp only [exec, Sys.setNode] at h
      cases hnd : s.nodes.get? n with
      | none =>
        simp only [hnd] at h
        exact Option.noConfusion h
      | some nd =>
        simp only [hnd] at h
        by_cases hss : nd.selfSub = true
        · rw [if_pos hss] at h
          obtain ⟨Δ1, h1⟩ := ih _ _ _ h
          exact ⟨Δ1, h1⟩
        · rw [if_neg hss] at h
          injection h with he
          subst he
          exact ⟨[], by simp⟩

/-- Scenario: a root subscription over the store, `onStateChange` set to
`notifyNestedSubs` by its owner, the public `trySubscribe` called, then two
external callbacks `100` and `101` registered through `addNestedSub` in that
order; finally the store state changes. -/
def scenarioA : Option Sys := do
  let s1 ← (Sys.mk [SubNode.fresh none] Collection.empty 0 [] []).setOSC 0 true
  let r2 ← exec 20 (.selfSub 0) s1
  let r3 ← exec 20 (.addNested 0 (Cb2.ext 100)) r2.1
  let r4 ← exec 20 (.addNested 0 (Cb2.ext 101)) r3.1
  storeDispatch 20 1 r4.1

/-- Scenario: root subscription 0 and child subscription 1 (created with
parent 0).  The child registers external callback `200` (connecting itself
under the root as a side effect), then the root gains its own external
callback `101`; the store state changes. -/
def scenarioB : Option Sys := do
  let s1 ← (Sys.mk [SubNode.fresh none, SubNode.fresh (some 0)]
      Collection.empty 0 [] []).setOSC 0 true
  let s2 ← s1.setOSC 1 true
  let r3 ← exec 20 (.selfSub 0) s2
  let r4 ← exec 20 (.addNested 1 (Cb2.ext 200)) r3.1
  let r5 ← exec 20 (.addNested 0 (Cb2.ext 101)) r4.1
  storeDispatch 20 1 r5.1

/-- C1: in scenario A one state change invokes the root handler and then the
two callbacks in registration order, each exactly once; in scenario B the
store change reaches the child's own listener only after the child's
handleChangeWrapper has run (top-down propagation), with the root's later
sibling listener still following; and in general every completed
`handleChangeWrapper` call on any node appends that node's handler event to
the log before any event produced by its dispatch. -/
theorem claim_C1 :
    scenarioA.map Sys.log = some [Ev.handler 0, Ev.ext 100, Ev.ext 101] ∧
    scenarioB.map Sys.log =
      some [Ev.handler 0, Ev.handler 1, Ev.ext 200, Ev.ext 101] ∧
    (∀ (fuel n : Nat) (sys : Sys) (res : Sys × Nat),
      exec fuel (ICall.handleChange n) sys = some res →
      ∃ Δ, res.1.log = sys.log ++ Ev.handler n :: Δ) := by
  refine ⟨by decide, by decide, ?_⟩
  intro fuel n sys res h
  cases fuel with
  | zero => simp [exec] at h
  | succ fuel =>
    simp only [exec] at h
    cases hnd : sys.nodes.get? n with
    | none =>
      simp only [hnd] at h
      exact Option.noConfusion h
    | some nd =>
      simp only [hnd] at h
      by_cases ho : nd.osc = true
      · rw [if_pos ho] at h
        obtain ⟨Δ, hΔ⟩ := exec_log_mono _ _ _ _ h
        exact ⟨Δ, by rw [hΔ]; simp⟩
      · rw [if_neg ho] at h
        injection h with he
        subst he
        exact ⟨[], by simp⟩

theorem claim_C1_witness :
    ∃ Δ, ((exec 20 (ICall.handleChange 0)
        (Sys.mk [SubNode.fresh none] Collection.empty 0 [] [])).getD
        (Sys.mk [] Collection.empty 0 [] [], 0)).1.log =
      (Sys.mk [SubNode.fresh none] Collection.empty 0 [] []).log ++
        Ev.handler 0 :: Δ :=
  claim_C1.2.2 20 0 _ _ (by decide)

/-- Scenario for C5: root subscription 0, child subscription 1 under it; the
child holds the single nested listener `200`.  After one store change has
delivered `200`, the cleanup of the child's only nested subscription runs
(the child's counter hits zero, detaching it from the root), and the store
changes again. -/
def scenarioC : Option Sys := do
  let s1 ← (Sys.mk [SubNode.fresh none, SubNode.fresh (some 0)]
      Collection.empty 0 [] []).setOSC 0 true
  let s2 ← s1.setOSC 1 true
  let r3 ← exec 20 (.selfSub 0) s2
  let r4 ← exec 20 (.addNested 1 (Cb2.ext 200)) r3.1
  let s5 ← storeDispatch 20 1 r4.1
  let r6 ← exec 20 (.cleanup 1 0) s5
  storeDispatch 20 2 r6.1

/-- C5: after the child's last nested subscription is cleaned up, the root's
registry holds no live listener at all (the child's handleChangeWrapper has
been unlinked), and the second store change invokes only the root's own
handler — the nested listener `200` is not invoked again. -/
theorem claim_C5 :
    (scenarioC.map fun s => (s.nodes.get? 0).bind fun nd =>
        nd.listeners.bind fun ci => (nd.colls.get? ci).map Collection.get) =
      some (some []) ∧
    scenarioC.map Sys.log =
      some [Ev.handler 0, Ev.handler 1, Ev.ext 200, Ev.handler 0] := by
  exact ⟨by decide, by decide⟩

/-- C9: Provider's attach effect on a freshly created root subscription sets
`onStateChange` to `notifyNestedSubs` and calls the public `trySubscribe`
(the node ends up self-subscribed with one reason, a real listener
collection installed, and the store's `subscribe` invoked exactly once with
its `handleChangeWrapper`); `notifyNestedSubs` is additionally invoked
exactly once if and only if the previously captured state snapshot differs
from `store.getState()` read after subscribing. -/
theorem claim_C9 (sys : Sys) (n prev fuel : Nat)
    (hn : sys.nodes.get? n = some (SubNode.fresh none))
    (hf : 2 ≤ fuel) :
    ∃ sys', providerAttach fuel prev n sys = some sys' ∧
      (∃ nd, sys'.nodes.get? n = some nd ∧ nd.osc = true ∧ nd.selfSub = true ∧
        nd.amount = 1 ∧ nd.unsub = some (UpHandle.store
          (sys.storeColl.subscribe (Cb2.child n)).1) ∧
        nd.listeners = some 0) ∧
      sys'.storeColl = (sys.storeColl.subscribe (Cb2.child n)).2 ∧
      sys'.storeState = sys.storeState ∧
      (prev = sys.storeState → sys'.nnLog = sys.nnLog) ∧
      (prev ≠ sys.storeState → sys'.nnLog = sys.nnLog ++ [n]) := by
  obtain ⟨m, rfl⟩ : ∃ m, fuel = m + 2 := ⟨fuel - 2, by omega⟩
  have hlen : n < sys.nodes.length := get?_some_lt hn
  simp only [providerAttach, Sys.setOSC, hn, Sys.setNode, SubNode.fresh, exec,
    List.get?_set_eq_of_lt, List.length_set, hlen, reduceIte, Bool.false_eq_true,
    if_false, List.length_nil, List.nil_append, List.get?_cons_zero,
    Collection.empty, Option.map_some']
  by_cases hp : prev = sys.storeState
  · rw [if_neg (show ¬(prev ≠ sys.storeState) from fun hc => hc hp)]
    refine ⟨_, rfl, ?_, rfl, rfl, fun _ => rfl, fun hc => absurd hp hc⟩
    simp only [List.get?_set_eq_of_lt, List.length_set, hlen]
    exact ⟨_, rfl, rfl, rfl, rfl, rfl, rfl⟩
  · rw [if_pos hp]
    refine ⟨_, rfl, ?_, rfl, rfl, fun he => absurd he hp, fun _ => rfl⟩
    simp only [List.get?_set_eq_of_lt, List.length_set, hlen]
    exact ⟨_, rfl, rfl, rfl, rfl, rfl, rfl⟩

theorem claim_C9_witness :
    ∃ sys', providerAttach 2 1 0
        (Sys.mk [SubNode.fresh none] Collection.empty 0 [] []) = some sys' ∧
      (∃ nd, sys'.nodes.get? 0 = some nd ∧ nd.osc = true ∧ nd.selfSub = true ∧
        nd.amount = 1 ∧ nd.unsub = some (UpHandle.store
          ((Sys.mk [SubNode.fresh none] Collection.empty 0 [] []).storeColl.subscribe
            (Cb2.child 0)).1) ∧
        nd.listeners = some 0) ∧
      sys'.storeColl =
        ((Sys.mk [SubNode.fresh none] Collection.empty 0 [] []).storeColl.subscribe
          (Cb2.child 0)).2 ∧
      sys'.storeState =
        (Sys.mk [SubNode.fresh none] Collection.empty 0 [] []).storeState ∧
      (1 = (Sys.mk [SubNode.fresh none] Collection.empty 0 [] []).storeState →
        sys'.nnLog = (Sys.mk [SubNode.fresh none] Collection.empty 0 [] []).nnLog) ∧
      (1 ≠ (Sys.mk [SubNode.fresh none] Collection.empty 0 [] []).storeState →
        sys'.nnLog =
          (Sys.mk [SubNode.fresh none] Collection.empty 0 [] []).nnLog ++ [0]) :=
  claim_C9 (Sys.mk [SubNode.fresh none] Collection.empty 0 [] []) 0 1 2
    (by decide) (by decide)
